import Mathlib

/-!
Verification development for the `revel_data_logging` repository.

We shallowly embed the context-merge engine, the JSON compact renderer
(`json_formatter.py`, `serde/json.py`), the pretty tree renderer
(`pretty_console.py`), the scoped emission controller (`revel_logger.py`)
and the context injection adapter (`scope_formatter.py`), and prove or
refute the frozen specification claims about them.

Python values are modelled by the inductive type `PyValue`; Python `dict`s
are modelled as ordered association lists with the standard CPython
assignment semantics (assigning to an existing key keeps its position and
replaces its value; assigning a fresh key appends it at the end).
-/

/-- Model of a Python runtime value as far as the logging layer observes it:
`VNone`, booleans, integers, strings, lists, dicts (ordered, string keys as
used throughout the repository), `datetime` objects (carrying the result of
`isoformat()` and of `repr()`), and arbitrary other objects (carrying the
result of `str()`, of `repr()`, and the result of `__json__()` when the
object defines one). -/
inductive PyValue where
  | VNone : PyValue
  | VBool (b : Bool) : PyValue
  | VInt (n : Int) : PyValue
  | VStr (s : String) : PyValue
  | VList (xs : List PyValue) : PyValue
  | VDict (xs : List (String × PyValue)) : PyValue
  | VDateTime (iso : String) (rep : String) : PyValue
  | VObj (strv : String) (rep : String) (jsonv : Option PyValue) : PyValue

/-- Ordered association list standing for a Python `dict` with string keys. -/
abbrev Dict := List (String × PyValue)

/-- CPython `d[k] = v` on an ordered dict: replace in place if the key is
present, else append at the end. -/
def dictInsert : Dict → String → PyValue → Dict
  | [], k, v => [(k, v)]
  | p :: rest, k, v => if p.1 = k then (k, v) :: rest else p :: dictInsert rest k v

/-- Lookup in the ordered dict (first binding of the key). -/
def dictGet : Dict → String → Option PyValue
  | [], _ => none
  | p :: rest, k => if p.1 = k then some p.2 else dictGet rest k

/-- Key sequence of the dict, in insertion order. -/
def dictKeys : Dict → List String
  | [] => []
  | p :: rest => p.1 :: dictKeys rest

/-- Model of Python `d.update(e)` / a sequence of assignments `d[k] = v`
for `(k, v)` in `e`, in order. -/
def dictUpdate (d : Dict) (e : Dict) : Dict :=
  e.foldl (fun acc p => dictInsert acc p.1 p.2) d

theorem dictGet_insert_self (d : Dict) (k : String) (v : PyValue) :
    dictGet (dictInsert d k v) k = some v := by
  induction d with
  | nil => simp [dictInsert, dictGet]
  | cons p rest ih =>
    by_cases h : p.1 = k
    · simp [dictInsert, h, dictGet]
    · simp [dictInsert, if_neg h, dictGet, h, ih]

theorem dictGet_insert_ne (d : Dict) (k k' : String) (v : PyValue) (h : k ≠ k') :
    dictGet (dictInsert d k v) k' = dictGet d k' := by
  induction d with
  | nil => simp [dictInsert, dictGet, h]
  | cons p rest ih =>
    by_cases hp : p.1 = k
    · simp [dictInsert, hp, dictGet, h, hp ▸ h]
    · by_cases hp' : p.1 = k'
      · simp [dictInsert, if_neg hp, dictGet, hp', Ne.symm h]
      · simp [dictInsert, if_neg hp, dictGet, hp', ih]

theorem dictKeys_insert_mem (d : Dict) (k : String) (v : PyValue)
    (h : k ∈ dictKeys d) : dictKeys (dictInsert d k v) = dictKeys d := by
  induction d with
  | nil => simp [dictKeys] at h
  | cons p rest ih =>
    by_cases hp : p.1 = k
    · simp [dictInsert, hp, dictKeys]
    · have hmem : k ∈ dictKeys rest := by
        rcases (by simpa [dictKeys] using h) with h1 | h2
        · exact absurd h1.symm hp
        · exact h2
      simp [dictInsert, if_neg hp, dictKeys, ih hmem]

theorem dictKeys_insert_not_mem (d : Dict) (k : String) (v : PyValue)
    (h : k ∉ dictKeys d) : dictKeys (dictInsert d k v) = dictKeys d ++ [k] := by
  induction d with
  | nil => simp [dictInsert, dictKeys]
  | cons p rest ih =>
    have hp : p.1 ≠ k := by
      intro hpk
      exact h (by simp [dictKeys, hpk])
    have hmem : k ∉ dictKeys rest := by
      intro hk
      exact h (by simp [dictKeys, hk])
    simp [dictInsert, if_neg hp, dictKeys, ih hmem]

/-- Value of the last binding of `k` in the frame `f` (Python dict-update
semantics: the last assignment wins). -/
def lastVal : Dict → String → Option PyValue
  | [], _ => none
  | p :: rest, k =>
      match lastVal rest k with
      | some v => some v
      | none => if p.1 = k then some p.2 else none

/-- Keys of the frame `f` that are not yet in `seen`, in first-occurrence
order (the keys that a sequence of dict assignments appends). -/
def newKeys : List String → Dict → List String
  | _, [] => []
  | seen, p :: rest =>
      if p.1 ∈ seen then newKeys seen rest
      else p.1 :: newKeys (seen ++ [p.1]) rest

theorem dictGet_dictUpdate (f : Dict) (d : Dict) (k : String) :
    dictGet (dictUpdate d f) k =
      match lastVal f k with
      | some v => some v
      | none => dictGet d k := by
  induction f generalizing d with
  | nil => simp [dictUpdate, lastVal]
  | cons p rest ih =>
    have step : dictUpdate d (p :: rest) = dictUpdate (dictInsert d p.1 p.2) rest := by
      simp [dictUpdate]
    rw [step, ih]
    cases hrest : lastVal rest k with
    | some v => simp [lastVal, hrest]
    | none =>
      by_cases hk : p.1 = k
      · subst hk
        simp [lastVal, hrest, dictGet_insert_self]
      · simp [lastVal, hrest, hk, dictGet_insert_ne _ _ _ _ hk]

theorem dictKeys_dictUpdate (f : Dict) (d : Dict) :
    dictKeys (dictUpdate d f) = dictKeys d ++ newKeys (dictKeys d) f := by
  induction f generalizing d with
  | nil => simp [dictUpdate, newKeys]
  | cons p rest ih =>
    have step : dictUpdate d (p :: rest) = dictUpdate (dictInsert d p.1 p.2) rest := by
      simp [dictUpdate]
    rw [step, ih]
    by_cases hmem : p.1 ∈ dictKeys d
    · rw [dictKeys_insert_mem _ _ _ hmem]
      simp [newKeys, hmem]
    · rw [dictKeys_insert_not_mem _ _ _ hmem]
      simp [newKeys, hmem, List.append_assoc]

theorem newKeys_congr (f : Dict) (s1 s2 : List String)
    (h : ∀ k ∈ dictKeys f, (k ∈ s1 ↔ k ∈ s2)) : newKeys s1 f = newKeys s2 f := by
  induction f generalizing s1 s2 with
  | nil => simp [newKeys]
  | cons p rest ih =>
    have hp : p.1 ∈ s1 ↔ p.1 ∈ s2 := h p.1 (by simp [dictKeys])
    by_cases h1 : p.1 ∈ s1
    · have h2 : p.1 ∈ s2 := hp.mp h1
      simp only [newKeys, if_pos h1, if_pos h2]
      exact ih s1 s2 (fun k hk => h k (by simp [dictKeys, hk]))
    · have h2 : p.1 ∉ s2 := fun hx => h1 (hp.mpr hx)
      simp only [newKeys, if_neg h1, if_neg h2]
      have : newKeys (s1 ++ [p.1]) rest = newKeys (s2 ++ [p.1]) rest := by
        refine ih _ _ (fun k hk => ?_)
        have := h k (by simp [dictKeys, hk])
        simp [List.mem_append, this]
      rw [this]

theorem mem_dictKeys_dictUpdate_left (f : Dict) (d : Dict) (k : String)
    (h : k ∈ dictKeys d) : k ∈ dictKeys (dictUpdate d f) := by
  rw [dictKeys_dictUpdate]
  exact List.mem_append_left _ h

theorem indexOf_dictKeys_dictUpdate (f : Dict) (d : Dict) (k : String)
    (h : k ∈ dictKeys d) :
    (dictKeys (dictUpdate d f)).indexOf k = (dictKeys d).indexOf k := by
  rw [dictKeys_dictUpdate]
  exact List.indexOf_append_of_mem h

/-- Decimal digit character for `n % 10`. -/
def digitChar (n : Nat) : Char := Char.ofNat (48 + n % 10)

/-- Accumulator loop producing the decimal digits of `n` in front of `acc`. -/
def natReprAux : Nat → List Char → List Char
  | 0, acc => acc
  | n + 1, acc => natReprAux ((n + 1) / 10) (digitChar ((n + 1) % 10) :: acc)
decreasing_by exact Nat.div_lt_self (Nat.succ_pos n) (by norm_num)

/-- Decimal representation of a natural number (Python `repr` of a
non-negative `int`). -/
def natRepr (n : Nat) : String :=
  if n = 0 then "0" else String.mk (natReprAux n [])

/-- Decimal representation of an integer (Python `repr` of an `int`, as
used by `json.dumps` and by f-string `!r` interpolation). -/
def intRepr : Int → String
  | Int.ofNat m => natRepr m
  | Int.negSucc m => "-" ++ natRepr (m + 1)

theorem natReprAux_chars (P : Char → Prop) (hd : ∀ m, P (digitChar m)) :
    ∀ n acc, (∀ c ∈ acc, P c) → ∀ c ∈ natReprAux n acc, P c := by
  intro n
  induction n using Nat.strong_induction_on with
  | _ n ih =>
    intro acc hacc c hc
    match n with
    | 0 =>
      rw [natReprAux] at hc
      exact hacc c hc
    | m + 1 =>
      rw [natReprAux] at hc
      refine ih ((m + 1) / 10) (Nat.div_lt_self (Nat.succ_pos m) (by norm_num)) _ ?_ c hc
      intro e he
      rcases List.mem_cons.mp he with he1 | he2
      · rw [he1]
        exact hd _
      · exact hacc e he2

theorem natRepr_chars (P : Char → Prop) (hd : ∀ m, P (digitChar m)) (h0 : P '0')
    (n : Nat) : ∀ c ∈ (natRepr n).data, P c := by
  intro c hc
  unfold natRepr at hc
  by_cases h : n = 0
  · simp [h] at hc
    simpa [hc] using h0
  · rw [if_neg h] at hc
    exact natReprAux_chars P hd n [] (by simp) c hc

theorem intRepr_chars (P : Char → Prop) (hd : ∀ m, P (digitChar m)) (h0 : P '0')
    (hminus : P '-') (n : Int) : ∀ c ∈ (intRepr n).data, P c := by
  intro c hc
  cases n with
  | ofNat m => exact natRepr_chars P hd h0 m c hc
  | negSucc m =>
    simp only [intRepr] at hc
    rw [String.data_append] at hc
    rcases List.mem_append.mp hc with hc | hc
    · simp at hc
      simpa [hc] using hminus
    · exact natRepr_chars P hd h0 (m + 1) c hc

/-- Lowercase hexadecimal digit for `n < 16`. -/
def hexDigit (n : Nat) : Char :=
  if n < 10 then Char.ofNat (48 + n) else Char.ofNat (87 + n)

/-- Escaping of one character in a JSON string literal, as performed by
CPython `json.dumps` with `ensure_ascii=False`: the two-character escapes
for quote, backslash and the common control characters, a `\u00xx` escape
for the remaining control characters, every other character verbatim. -/
def escChar (c : Char) : List Char :=
  if c = '"' then ['\\', '"']
  else if c = '\\' then ['\\', '\\']
  else if c = '\n' then ['\\', 'n']
  else if c = '\r' then ['\\', 'r']
  else if c = '\t' then ['\\', 't']
  else if c = Char.ofNat 8 then ['\\', 'b']
  else if c = Char.ofNat 12 then ['\\', 'f']
  else if c.toNat < 32 then
    ['\\', 'u', '0', '0', hexDigit (c.toNat / 16), hexDigit (c.toNat % 16)]
  else [c]

/-- Escape every character of a string body. -/
def escList : List Char → List Char
  | [] => []
  | c :: cs => escChar c ++ escList cs

/-- JSON string literal for `s` (quotes plus escaped body). -/
def jsonQuote (s : String) : String :=
  String.mk ('"' :: (escList s.data ++ ['"']))

/-- Join a list of fragments with a separator (Python `sep.join(parts)`). -/
def joinSep (sep : String) : List String → String
  | [] => ""
  | [x] => x
  | x :: y :: xs => x ++ sep ++ joinSep sep (y :: xs)

mutual
/-- Model of CPython `json.dumps(v, ensure_ascii=False, default=...)` with the
default separators `", "` and `": "`. When `hasDefault` is `true` the
`default` hook is the repository's `json_serialize` (src/revel_data_logging/
serde/json.py): a `datetime` serializes as its `isoformat()`, an object with
`__json__` as the serialization of `o.__json__()`, and any other object as
its `str()`; when `hasDefault` is `false` unsupported objects raise
`TypeError`, modelled as `Except.error`. -/
def dumpsVal (hasDefault : Bool) : PyValue → Except String String
  | PyValue.VNone => Except.ok "null"
  | PyValue.VBool b => Except.ok (if b then "true" else "false")
  | PyValue.VInt n => Except.ok (intRepr n)
  | PyValue.VStr s => Except.ok (jsonQuote s)
  | PyValue.VList xs =>
      Except.map (fun ps => "[" ++ joinSep ", " ps ++ "]") (dumpsElems hasDefault xs)
  | PyValue.VDict xs =>
      Except.map (fun ps => "\x7b" ++ joinSep ", " ps ++ "\x7d") (dumpsEntries hasDefault xs)
  | PyValue.VDateTime iso _ =>
      if hasDefault then Except.ok (jsonQuote iso) else Except.error "TypeError"
  | PyValue.VObj strv _ jsonv =>
      if hasDefault then
        match jsonv with
        | some v => dumpsVal hasDefault v
        | none => Except.ok (jsonQuote strv)
      else Except.error "TypeError"

/-- Serialization of the elements of a JSON array. -/
def dumpsElems (hasDefault : Bool) : List PyValue → Except String (List String)
  | [] => Except.ok []
  | x :: xs => do
      let s ← dumpsVal hasDefault x
      let rest ← dumpsElems hasDefault xs
      Except.ok (s :: rest)

/-- Serialization of the members of a JSON object. -/
def dumpsEntries (hasDefault : Bool) : List (String × PyValue) → Except String (List String)
  | [] => Except.ok []
  | p :: xs => do
      let s ← dumpsVal hasDefault p.2
      let rest ← dumpsEntries hasDefault xs
      Except.ok ((jsonQuote p.1 ++ ": " ++ s) :: rest)
end

/-- Shallow model of a `logging.LogRecord` as consumed by the two REVEL
formatters: level name, formatted timestamp, final message (after
`record.getMessage()`), logger name, and the `extra` attribute injected by
the REVEL loggers when present. -/
structure LogRecord where
  levelname : String
  asctime : String
  message : String
  name : String
  extra : Option Dict

/-- Model of `JSONFormatter._parse_params` (src/revel_data_logging/
json_formatter.py): write the formatter's default params into `output`,
then every entry of `record.extra` when the record has one. -/
def parse_params (params : Dict) (rec : LogRecord) (output : Dict) : Dict :=
  let o1 := dictUpdate output params
  match rec.extra with
  | some e => dictUpdate o1 e
  | none => o1

/-- The dict built by `JSONFormatter.format` before serialization: the three
reserved keys, then `_parse_params`. -/
def jsonOutputDict (params : Dict) (rec : LogRecord) : Dict :=
  parse_params params rec
    [("level", PyValue.VStr rec.levelname),
     ("time", PyValue.VStr rec.asctime),
     ("message", PyValue.VStr rec.message)]

/-- Model of `JSONFormatter.format`: serialize the output dict with
`json.dumps(..., ensure_ascii=False, default=json_serialize)`. -/
def JSONFormatter_format (params : Dict) (rec : LogRecord) : Except String String :=
  dumpsVal true (PyValue.VDict (jsonOutputDict params rec))

theorem digitChar_ne_low (m : Nat) (bad : Char) (hb : bad.toNat < 48) :
    digitChar m ≠ bad := by
  unfold digitChar
  have h : m % 10 < 10 := Nat.mod_lt _ (by norm_num)
  generalize hg : m % 10 = k at h ⊢
  interval_cases k
  all_goals (intro he; revert hb; rw [← he]; decide)

theorem hexDigit_ne_low (n : Nat) (hn : n < 16) (bad : Char) (hb : bad.toNat < 48) :
    hexDigit n ≠ bad := by
  unfold hexDigit
  interval_cases n
  all_goals (intro he; revert hb; rw [← he]; decide)

/-- Newline-freeness of a string: no raw line feed appears in it. -/
abbrev StrNoNL (s : String) : Prop := ∀ c ∈ s.data, c ≠ '\n'

theorem escChar_ne_newline (c : Char) : ∀ e ∈ escChar c, e ≠ '\n' := by
  intro e he
  unfold escChar at he
  split_ifs at he with h1 h2 h3 h4 h5 h6 h7 h8
  · simp at he
    rcases he with rfl | rfl <;> decide
  · simp at he
    subst he
    decide
  · simp at he
    rcases he with rfl | rfl <;> decide
  · simp at he
    rcases he with rfl | rfl <;> decide
  · simp at he
    rcases he with rfl | rfl <;> decide
  · simp at he
    rcases he with rfl | rfl <;> decide
  · simp at he
    rcases he with rfl | rfl <;> decide
  · simp at he
    rcases he with rfl | rfl | rfl | rfl | rfl
    · decide
    · decide
    · decide
    · exact hexDigit_ne_low (c.toNat / 16) (by omega) '\n' (by decide)
    · exact hexDigit_ne_low (c.toNat % 16) (Nat.mod_lt _ (by norm_num)) '\n' (by decide)
  · simp at he
    subst he
    intro hco
    subst hco
    exact h8 (by decide)

theorem escList_ne_newline (cs : List Char) : ∀ e ∈ escList cs, e ≠ '\n' := by
  induction cs with
  | nil => simp [escList]
  | cons c rest ih =>
    intro e he
    rcases List.mem_append.mp (by simpa [escList] using he) with h | h
    · exact escChar_ne_newline c e h
    · exact ih e h

theorem jsonQuote_noNL (s : String) : StrNoNL (jsonQuote s) := by
  intro c hc
  simp only [jsonQuote] at hc
  rcases List.mem_cons.mp hc with h | h
  · subst h
    decide
  · rcases List.mem_append.mp h with h | h
    · exact escList_ne_newline s.data c h
    · simp at h
      subst h
      decide

theorem intRepr_noNL (n : Int) : StrNoNL (intRepr n) := by
  intro c hc
  refine intRepr_chars (fun c => c ≠ '\n') ?_ (by decide) (by decide) n c hc
  intro m
  exact digitChar_ne_low m _ (by decide)

theorem append_noNL (a b : String) (ha : StrNoNL a) (hb : StrNoNL b) :
    StrNoNL (a ++ b) := by
  intro c hc
  rw [String.data_append] at hc
  rcases List.mem_append.mp hc with h | h
  · exact ha c h
  · exact hb c h

theorem joinSep_noNL (sep : String) (parts : List String) (hsep : StrNoNL sep)
    (h : ∀ p ∈ parts, StrNoNL p) : StrNoNL (joinSep sep parts) := by
  induction parts with
  | nil =>
    intro c hc
    simp [joinSep] at hc
  | cons x xs ih =>
    cases xs with
    | nil => simpa [joinSep] using h x (by simp)
    | cons y ys =>
      simp only [joinSep]
      refine append_noNL _ _ (append_noNL _ _ (h x (by simp)) hsep) ?_
      exact ih (fun p hp => h p (List.mem_cons_of_mem x hp))

mutual
theorem dumpsVal_total (v : PyValue) : ∃ s, dumpsVal true v = Except.ok s := by
  match v with
  | PyValue.VNone => exact ⟨"null", by simp [dumpsVal]⟩
  | PyValue.VBool b => exact ⟨if b then "true" else "false", by simp [dumpsVal]⟩
  | PyValue.VInt n => exact ⟨intRepr n, by simp [dumpsVal]⟩
  | PyValue.VStr s => exact ⟨jsonQuote s, by simp [dumpsVal]⟩
  | PyValue.VList xs =>
    obtain ⟨ps, hp⟩ := dumpsElems_total xs
    exact ⟨"[" ++ joinSep ", " ps ++ "]", by simp [dumpsVal, hp, Except.map]⟩
  | PyValue.VDict xs =>
    obtain ⟨ps, hp⟩ := dumpsEntries_total xs
    exact ⟨"\x7b" ++ joinSep ", " ps ++ "\x7d", by simp [dumpsVal, hp, Except.map]⟩
  | PyValue.VDateTime iso rep => exact ⟨jsonQuote iso, by simp [dumpsVal]⟩
  | PyValue.VObj strv rep (some w) =>
    obtain ⟨s, hs⟩ := dumpsVal_total w
    exact ⟨s, by simp [dumpsVal, hs]⟩
  | PyValue.VObj strv rep none => exact ⟨jsonQuote strv, by simp [dumpsVal]⟩

theorem dumpsElems_total (xs : List PyValue) :
    ∃ ps, dumpsElems true xs = Except.ok ps := by
  match xs with
  | [] => exact ⟨[], by simp [dumpsElems]⟩
  | x :: rest =>
    obtain ⟨s, hs⟩ := dumpsVal_total x
    obtain ⟨ps, hp⟩ := dumpsElems_total rest
    exact ⟨s :: ps, by simp [dumpsElems, hs, hp, Bind.bind, Except.bind]⟩

theorem dumpsEntries_total (xs : List (String × PyValue)) :
    ∃ ps, dumpsEntries true xs = Except.ok ps := by
  match xs with
  | [] => exact ⟨[], by simp [dumpsEntries]⟩
  | p :: rest =>
    obtain ⟨s, hs⟩ := dumpsVal_total p.2
    obtain ⟨ps, hp⟩ := dumpsEntries_total rest
    exact ⟨(jsonQuote p.1 ++ ": " ++ s) :: ps, by simp [dumpsEntries, hs, hp, Bind.bind, Except.bind]⟩
end

mutual
theorem dumpsVal_noNL (v : PyValue) (s : String)
    (h : dumpsVal true v = Except.ok s) : StrNoNL s := by
  match v with
  | PyValue.VNone =>
    simp [dumpsVal] at h
    subst h
    decide
  | PyValue.VBool b =>
    simp [dumpsVal] at h
    subst h
    cases b <;> decide
  | PyValue.VInt n =>
    simp [dumpsVal] at h
    subst h
    exact intRepr_noNL n
  | PyValue.VStr t =>
    simp [dumpsVal] at h
    subst h
    exact jsonQuote_noNL t
  | PyValue.VList xs =>
    obtain ⟨ps, hp⟩ := dumpsElems_total xs
    rw [show dumpsVal true (PyValue.VList xs) =
        Except.map (fun ps => "[" ++ joinSep ", " ps ++ "]") (dumpsElems true xs) from by
      simp [dumpsVal], hp] at h
    simp [Except.map] at h
    subst h
    refine append_noNL _ _ (append_noNL _ _ (by decide) ?_) (by decide)
    exact joinSep_noNL ", " ps (by decide) (dumpsElems_noNL xs ps hp)
  | PyValue.VDict xs =>
    obtain ⟨ps, hp⟩ := dumpsEntries_total xs
    rw [show dumpsVal true (PyValue.VDict xs) =
        Except.map (fun ps => "\x7b" ++ joinSep ", " ps ++ "\x7d") (dumpsEntries true xs) from by
      simp [dumpsVal], hp] at h
    simp [Except.map] at h
    subst h
    refine append_noNL _ _ (append_noNL _ _ (by decide) ?_) (by decide)
    exact joinSep_noNL ", " ps (by decide) (dumpsEntries_noNL xs ps hp)
  | PyValue.VDateTime iso rep =>
    simp [dumpsVal] at h
    subst h
    exact jsonQuote_noNL iso
  | PyValue.VObj strv rep (some w) =>
    simp [dumpsVal] at h
    exact dumpsVal_noNL w s h
  | PyValue.VObj strv rep none =>
    simp [dumpsVal] at h
    subst h
    exact jsonQuote_noNL strv

theorem dumpsElems_noNL (xs : List PyValue) (ps : List String)
    (h : dumpsElems true xs = Except.ok ps) : ∀ p ∈ ps, StrNoNL p := by
  match xs with
  | [] =>
    simp [dumpsElems] at h
    subst h
    simp
  | x :: rest =>
    obtain ⟨s0, hs⟩ := dumpsVal_total x
    obtain ⟨ps0, hp⟩ := dumpsElems_total rest
    rw [show dumpsElems true (x :: rest) = do
        let s ← dumpsVal true x
        let r ← dumpsElems true rest
        Except.ok (s :: r) from by simp [dumpsElems]] at h
    rw [hs, hp] at h
    simp [Bind.bind, Except.bind] at h
    subst h
    intro p hmem
    rcases List.mem_cons.mp hmem with h1 | h2
    · rw [h1]
      exact dumpsVal_noNL x s0 hs
    · exact dumpsElems_noNL rest ps0 hp p h2

theorem dumpsEntries_noNL (xs : List (String × PyValue)) (ps : List String)
    (h : dumpsEntries true xs = Except.ok ps) : ∀ p ∈ ps, StrNoNL p := by
  match xs with
  | [] =>
    simp [dumpsEntries] at h
    subst h
    simp
  | q :: rest =>
    obtain ⟨s0, hs⟩ := dumpsVal_total q.2
    obtain ⟨ps0, hp⟩ := dumpsEntries_total rest
    rw [show dumpsEntries true (q :: rest) = do
        let s ← dumpsVal true q.2
        let r ← dumpsEntries true rest
        Except.ok ((jsonQuote q.1 ++ ": " ++ s) :: r) from by simp [dumpsEntries]] at h
    rw [hs, hp] at h
    simp [Bind.bind, Except.bind] at h
    subst h
    intro p hmem
    rcases List.mem_cons.mp hmem with h1 | h2
    · rw [h1]
      refine append_noNL _ _ (append_noNL _ _ (jsonQuote_noNL q.1) (by decide)) ?_
      exact dumpsVal_noNL q.2 s0 hs
    · exact dumpsEntries_noNL rest ps0 hp p h2
end

theorem JSONFormatter_format_total (params : Dict) (rec : LogRecord) :
    ∃ s, JSONFormatter_format params rec = Except.ok s :=
  dumpsVal_total (PyValue.VDict (jsonOutputDict params rec))

theorem JSONFormatter_format_noNL (params : Dict) (rec : LogRecord) (s : String)
    (h : JSONFormatter_format params rec = Except.ok s) : StrNoNL s :=
  dumpsVal_noNL (PyValue.VDict (jsonOutputDict params rec)) s h

/-- The `extra` attribute a REVEL logger nests under its own name:
`self._extra` is either a dict or `None` (src/revel_data_logging/
revel_logger.py, `__init__`). -/
def extraVal : Option Dict → PyValue
  | none => PyValue.VNone
  | some d => PyValue.VDict d

/-- Python truthiness of an optional string field (`if self._success_bkp:`):
`None` and the empty string are falsy. -/
def pyTruthyStr : Option String → Bool
  | none => false
  | some s => !(s == "")

/-- Severity levels whose emission methods `REVELLogger` overrides. -/
inductive PyLevel where
  | debug : PyLevel
  | info : PyLevel
  | warning : PyLevel
  | error : PyLevel
  | critical : PyLevel

/-- Level name as `logging` exposes it on the record. -/
def levelName : PyLevel → String
  | PyLevel.debug => "DEBUG"
  | PyLevel.info => "INFO"
  | PyLevel.warning => "WARNING"
  | PyLevel.error => "ERROR"
  | PyLevel.critical => "CRITICAL"

/-- A record as emitted by a REVEL logger: severity, message, and the
`extra` payload handed to the standard machinery via
`extra={"extra": extra}`. -/
structure EmitRecord where
  level : String
  msg : String
  extra : Dict

/-- Common body of `REVELLogger.info` / `warning` / `error` / `debug` /
`critical` (src/revel_data_logging/revel_logger.py, lines 190-258): take
the call-site keyword context `kw`, execute `extra[self.name] = self._extra`
(the persistent context, nested under the logger's own name), and emit the
record with that payload. -/
def revelEmit (name : String) (extra : Option Dict) (level msg : String)
    (kw : Dict) : EmitRecord :=
  { level := level, msg := msg, extra := dictInsert kw name (extraVal extra) }

/-- Dispatch of the five overridden emission methods. -/
def revelMethod (name : String) (extra : Option Dict) (lvl : PyLevel)
    (msg : String) (kw : Dict) : EmitRecord :=
  revelEmit name extra (levelName lvl) msg kw

/-- Python `d.pop(k, None)`: drop the binding of `k` if present. -/
def dictErase : Dict → String → Dict
  | [], _ => []
  | p :: rest, k => if p.1 = k then rest else p :: dictErase rest k

/-- The mutable fields of a `REVELLogger` that its context-manager protocol
reads and writes: logger name, persistent context (`_extra`), configured
default messages, error policy, the one-shot message overrides, and the
`with_context_params` name. The stream-redirection bookkeeping
(`_stdout_bkp` / `_stderr_bkp`), being pure I/O plumbing, is not modelled. -/
structure ScopeState where
  name : String
  extra : Option Dict
  success_msg : String
  exc_msg : String
  handle_error : Bool
  success_bkp : Option String
  fail_bkp : Option String
  context_params_name : Option String

/-- Model of `REVELLogger.with_message`: store one-shot overrides for the
next scope exit (`fail` stays `None` unless given). -/
def with_message (st : ScopeState) (success : String) (fail : Option String) :
    ScopeState :=
  { st with success_bkp := some success, fail_bkp := fail }

/-- The `if self._context_params_name:` block of `__exit__`: pop the
context-params entry from the persistent dict and clear the name. (When
`_extra` is a dict, as on every path exercised here; `pop` on a `None`
`_extra` would be an `AttributeError` in Python.) -/
def scopeConsumeContext (st : ScopeState) : ScopeState :=
  if pyTruthyStr st.context_params_name then
    { st with
      extra := st.extra.map (fun d => dictErase d (st.context_params_name.getD "")),
      context_params_name := none }
  else st

/-- Model of `REVELLogger.__exit__` (src/revel_data_logging/revel_logger.py,
lines 103-141). `exc = none` models a clean exit (`exc_type is None`);
`exc = some (tyName, value)` models an exceptional exit with
`exc_type.__name__ = tyName` and `exc_val = value`. Returns the emitted
record, the state after the exit, and the returned suppression flag. -/
def scopeExit (st : ScopeState) (exc : Option (String × PyValue)) :
    EmitRecord × ScopeState × Bool :=
  let success := if pyTruthyStr st.success_bkp then st.success_bkp.getD "" else st.success_msg
  let fail := if pyTruthyStr st.fail_bkp then st.fail_bkp.getD "" else st.exc_msg
  let st1 := { st with success_bkp := none, fail_bkp := none }
  let st2 := scopeConsumeContext st1
  match exc with
  | none => (revelEmit st2.name st2.extra "INFO" success [], st2, st.handle_error)
  | some e =>
      let excd := PyValue.VDict
        [("error_type", PyValue.VStr e.1), ("error_value", e.2)]
      if st.handle_error then
        (revelEmit st2.name st2.extra "WARNING" fail [("exc", excd)], st2, true)
      else
        (revelEmit st2.name st2.extra "ERROR" fail [("exc", excd)], st2, false)

/-- The formatters a handler can carry, as the `isinstance(_handler.formatter,
_RevelFormatter)` capability probe distinguishes them: the two REVEL
formatters (which expose `_params` and `add_param`) satisfy the protocol,
a plain `logging.Formatter` does not. -/
inductive Formatter where
  | jsonF : Formatter
  | prettyF : Formatter
  | plainF : Formatter

/-- The runtime-checkable `_RevelFormatter` protocol test
(src/revel_data_logging/interfaces.py). -/
def isRevelFormatter : Formatter → Bool
  | Formatter.jsonF => true
  | Formatter.prettyF => true
  | Formatter.plainF => false

/-- A logging handler, reduced to the formatter it carries. -/
structure Handler where
  formatter : Formatter

/-- A base `REVELLogger` as the adapter layer sees it: name, persistent
context and attached handlers. -/
structure BaseLogger where
  name : String
  extra : Option Dict
  handlers : List Handler

/-- Model of `ContextLogger.__init__` (src/revel_data_logging/
scope_formatter.py, lines 19-39): scan `logger.handlers` for a formatter
satisfying `_RevelFormatter`; on failure the `assert` raises (modelled as
`Except.error` with the assertion message), otherwise the adapter (its
bound field name and value) is constructed. -/
def ContextLogger_init (logger : BaseLogger) (name : String) (extra : PyValue) :
    Except String (String × PyValue) :=
  if logger.handlers.any (fun h => isRevelFormatter h.formatter) then
    Except.ok (name, extra)
  else
    Except.error "logger must have at least one revel formatter"

/-- A stack of `ContextLogger` adapters over a base `REVELLogger`. -/
inductive LoggerChain where
  | base (b : BaseLogger) : LoggerChain
  | adapter (name : String) (extra : PyValue) (inner : LoggerChain) : LoggerChain

/-- Model of `ContextLogger.process` (src/revel_data_logging/
scope_formatter.py, lines 41-46): merge the adapter's bound entry on top of
the existing nested `extra` dict, and, when the wrapped logger is the base
`REVELLogger` itself, additionally store that logger's persistent context
under the logger's own name. -/
def contextProcess (name : String) (xtra : PyValue) (inner : LoggerChain)
    (existing : Dict) : Dict :=
  let merged := dictInsert existing name xtra
  match inner with
  | LoggerChain.base b => dictInsert merged b.name (extraVal b.extra)
  | LoggerChain.adapter _ _ _ => merged

/-- The `extra` payload of the record produced by calling `.info(msg, **kw)`
on the top of an adapter chain. `LoggerAdapter.log` runs this adapter's
`process` and then calls `self.logger.log(...)`, so each stacked adapter's
`process` runs exactly once, outermost first, and the base logger's
overridden `info` is never invoked (the record is created by
`logging.Logger.log` from the final `extra` payload). -/
def chainEmit : LoggerChain → Dict → Dict
  | LoggerChain.base _, d => d
  | LoggerChain.adapter n x inner, d => chainEmit inner (contextProcess n x inner d)

theorem dictInsert_ne_nil (d : Dict) (k : String) (v : PyValue) :
    dictInsert d k v ≠ [] := by
  cases d with
  | nil => simp [dictInsert]
  | cons p rest =>
    by_cases h : p.1 = k <;> simp [dictInsert, h]

theorem lastVal_eq_none_of_not_mem (f : Dict) (k : String)
    (h : k ∉ dictKeys f) : lastVal f k = none := by
  induction f with
  | nil => simp [lastVal]
  | cons p rest ih =>
    have hp : p.1 ≠ k := fun hpk => h (by simp [dictKeys, hpk])
    have hr : k ∉ dictKeys rest := fun hk => h (by simp [dictKeys, hk])
    simp [lastVal, ih hr, hp]

theorem newKeys_append (f1 f2 : Dict) (seen : List String) :
    newKeys seen (f1 ++ f2)
      = newKeys seen f1 ++ newKeys (seen ++ newKeys seen f1) f2 := by
  induction f1 generalizing seen with
  | nil => simp [newKeys]
  | cons p rest ih =>
    by_cases h : p.1 ∈ seen
    · simp only [List.cons_append, newKeys, if_pos h]
      exact ih seen
    · simp only [List.cons_append, newKeys, if_neg h]
      rw [show rest.append f2 = rest ++ f2 from rfl, ih (seen ++ [p.1])]
      simp [List.append_assoc]

theorem scopeConsumeContext_name (st : ScopeState) :
    (scopeConsumeContext st).name = st.name := by
  unfold scopeConsumeContext
  split <;> rfl

theorem scopeConsumeContext_of_none (st : ScopeState)
    (h : st.context_params_name = none) : scopeConsumeContext st = st := by
  unfold scopeConsumeContext
  simp [h, pyTruthyStr]

/-- The base emitter of the §8 stacked-adapter scenario: persistent context
`env="prod"`, one JSON-formatter handler. -/
def c1Base : BaseLogger :=
  { name := "base", extra := some [("env", PyValue.VStr "prod")],
    handlers := [{ formatter := Formatter.jsonF }] }

/-- Two stacked injection adapters: the outer one binds `request_id="r1"`,
the inner one binds `user_id="u2"`, over `c1Base`. -/
def c1Chain : LoggerChain :=
  LoggerChain.adapter "request_id" (PyValue.VStr "r1")
    (LoggerChain.adapter "user_id" (PyValue.VStr "u2") (LoggerChain.base c1Base))

/-- C1 counterexample: in the stacked-adapter scenario the merged top-level
context of the emitted record has keys `amount, request_id, user_id, base`
(the call-site transient key first, then the adapter keys outermost first,
then the base logger's own name carrying its persistent context nested),
not the claimed `env, request_id, user_id, amount`; in particular `env` is
not a top-level key at all. -/
theorem stacked_adapters_claimed_order_fails :
    dictKeys (chainEmit c1Chain [("amount", PyValue.VInt 42)])
      = ["amount", "request_id", "user_id", "base"] ∧
    dictKeys (chainEmit c1Chain [("amount", PyValue.VInt 42)])
      ≠ ["env", "request_id", "user_id", "amount"] ∧
    dictGet (chainEmit c1Chain [("amount", PyValue.VInt 42)]) "env" = none := by
  refine ⟨by decide, by decide, rfl⟩

/-- C1 amended: an emission with transient context `amount` through the two
stacked adapters over a base emitter with persistent context `env` produces
a merged top-level context with exactly the four keys `amount, request_id,
user_id` and the base logger's name (in that order), none overwritten, with
the persistent `env` context nested under the base logger's name rather
than flattened to the top level. -/
theorem stacked_adapters_merged_context (r1 u2 envv amt : PyValue)
    (hs : List Handler) :
    chainEmit
      (LoggerChain.adapter "request_id" r1
        (LoggerChain.adapter "user_id" u2
          (LoggerChain.base { name := "base", extra := some [("env", envv)], handlers := hs })))
      [("amount", amt)]
    = [("amount", amt), ("request_id", r1), ("user_id", u2),
       ("base", PyValue.VDict [("env", envv)])] := by
  rfl

/-- C3: the compact renderer is total — `JSONFormatter.format` returns some
text for every record and every (arbitrarily nested) context value, never
an error: a value with a `__json__` conversion serializes as that
conversion's serialization, a `datetime` as its `isoformat()`, and any
other non-primitive value falls back to its `str()` text. -/
theorem compact_render_total_with_fallback (params : Dict) (r : LogRecord) :
    (∃ s, JSONFormatter_format params r = Except.ok s) ∧
    (∀ strv rep j, dumpsVal true (PyValue.VObj strv rep (some j)) = dumpsVal true j) ∧
    (∀ strv rep, dumpsVal true (PyValue.VObj strv rep none) = Except.ok (jsonQuote strv)) ∧
    (∀ iso rep, dumpsVal true (PyValue.VDateTime iso rep) = Except.ok (jsonQuote iso)) := by
  refine ⟨JSONFormatter_format_total params r, ?_, ?_, ?_⟩
  · intro strv rep j
    simp [dumpsVal]
  · intro strv rep
    simp [dumpsVal]
  · intro iso rep
    simp [dumpsVal]

/-- C4: merging the formatter's default params and then the record's extra
frame over the reserved base dict has stable-key, latest-value semantics: a
key already present after the earlier frames that also occurs in the later
frame resolves to the later frame's (final) value, while its rendered
position is unchanged. -/
theorem merge_stable_key_latest_value (basef params extraf : Dict)
    (lvl ts msg nm : String) (k : String) (ve : PyValue)
    (hk : k ∈ dictKeys (dictUpdate basef params))
    (hlast : lastVal extraf k = some ve) :
    dictGet (parse_params params ⟨lvl, ts, msg, nm, some extraf⟩ basef) k = some ve ∧
    (dictKeys (parse_params params ⟨lvl, ts, msg, nm, some extraf⟩ basef)).indexOf k
      = (dictKeys (dictUpdate basef params)).indexOf k := by
  constructor
  · show dictGet (dictUpdate (dictUpdate basef params) extraf) k = some ve
    rw [dictGet_dictUpdate, hlast]
  · exact indexOf_dictKeys_dictUpdate extraf (dictUpdate basef params) k hk

/-- Witness for C4 at a concrete input: key `a` set to `1` by the params
frame and to `2` by the extra frame resolves to `2` and keeps its position. -/
theorem merge_stable_key_latest_value_witness :
    dictGet (parse_params [("a", PyValue.VInt 1)]
        ⟨"INFO", "t", "m", "app", some [("a", PyValue.VInt 2), ("b", PyValue.VInt 3)]⟩ []) "a"
      = some (PyValue.VInt 2) ∧
    (dictKeys (parse_params [("a", PyValue.VInt 1)]
        ⟨"INFO", "t", "m", "app", some [("a", PyValue.VInt 2), ("b", PyValue.VInt 3)]⟩ [])).indexOf "a"
      = (dictKeys (dictUpdate [] [("a", PyValue.VInt 1)])).indexOf "a" :=
  merge_stable_key_latest_value [] [("a", PyValue.VInt 1)]
    [("a", PyValue.VInt 2), ("b", PyValue.VInt 3)] "INFO" "t" "m" "app" "a"
    (PyValue.VInt 2) (by decide) rfl

/-- C5: on exceptional exit of a scope the controller builds an exception
metadata frame with exactly the two keys `error_type` (the exception type's
name) and `error_value` (the exception value), emits a WARNING record when
configured to suppress (`handle_error = true`) and an ERROR record when
configured to propagate, with the failure message override if one is set
(and non-empty) else the configured default, and returns the suppression
flag itself (true = swallow) as the context-manager resumption signal. -/
theorem scope_exceptional_exit_spec (st : ScopeState) (ty : String) (v : PyValue)
    (hbkp : st.fail_bkp ≠ some "") (hname : st.name ≠ "exc") :
    (scopeExit st (some (ty, v))).2.2 = st.handle_error ∧
    (scopeExit st (some (ty, v))).1.level
      = (if st.handle_error then "WARNING" else "ERROR") ∧
    (scopeExit st (some (ty, v))).1.msg = st.fail_bkp.getD st.exc_msg ∧
    dictGet (scopeExit st (some (ty, v))).1.extra "exc"
      = some (PyValue.VDict
          [("error_type", PyValue.VStr ty), ("error_value", v)]) := by
  have hmsg : (if pyTruthyStr st.fail_bkp then st.fail_bkp.getD "" else st.exc_msg)
      = st.fail_bkp.getD st.exc_msg := by
    cases hb : st.fail_bkp with
    | none => simp [pyTruthyStr]
    | some s =>
      have hs : ¬ s = "" := by
        intro hcon
        exact hbkp (by rw [hb, hcon])
      simp [pyTruthyStr, hs]
  have hget : ∀ nm (xv : PyValue), nm ≠ "exc" →
      dictGet (dictInsert [("exc",
          PyValue.VDict [("error_type", PyValue.VStr ty), ("error_value", v)])] nm xv) "exc"
        = some (PyValue.VDict [("error_type", PyValue.VStr ty), ("error_value", v)]) := by
    intro nm xv hnm
    rw [dictGet_insert_ne _ _ _ _ hnm]
    simp [dictGet]
  cases hhe : st.handle_error <;>
    simp [scopeExit, hhe, hmsg, revelEmit] <;>
    exact hget _ _ (by rw [scopeConsumeContext_name]; exact hname)

/-- Witness for C5: suppressing controller, exception kind `ValueError`,
value `"bad input"`, no override set — one WARNING record with the two-key
exception frame, resumption signal true (swallow). -/
theorem scope_exceptional_exit_spec_witness :
    ((scopeExit
        { name := "app", extra := some [("service", PyValue.VStr "billing")],
          success_msg := "success", exc_msg := "failed", handle_error := true,
          success_bkp := none, fail_bkp := none, context_params_name := none }
        (some ("ValueError", PyValue.VStr "bad input"))).2.2 = true) ∧
    ((scopeExit
        { name := "app", extra := some [("service", PyValue.VStr "billing")],
          success_msg := "success", exc_msg := "failed", handle_error := true,
          success_bkp := none, fail_bkp := none, context_params_name := none }
        (some ("ValueError", PyValue.VStr "bad input"))).1.level
      = (if true then "WARNING" else "ERROR")) ∧
    ((scopeExit
        { name := "app", extra := some [("service", PyValue.VStr "billing")],
          success_msg := "success", exc_msg := "failed", handle_error := true,
          success_bkp := none, fail_bkp := none, context_params_name := none }
        (some ("ValueError", PyValue.VStr "bad input"))).1.msg
      = (none : Option String).getD "failed") ∧
    dictGet ((scopeExit
        { name := "app", extra := some [("service", PyValue.VStr "billing")],
          success_msg := "success", exc_msg := "failed", handle_error := true,
          success_bkp := none, fail_bkp := none, context_params_name := none }
        (some ("ValueError", PyValue.VStr "bad input"))).1.extra) "exc"
      = some (PyValue.VDict
          [("error_type", PyValue.VStr "ValueError"),
           ("error_value", PyValue.VStr "bad input")]) :=
  scope_exceptional_exit_spec _ "ValueError" (PyValue.VStr "bad input")
    (by simp) (by simp)

/-- C6: on clean exit of a scope exactly one INFO record is emitted whose
message is the success override if one was set (and non-empty) else the
configured default, whose `extra` payload is exactly the logger's
persistent context nested under the logger's name (hence no exception
metadata frame), and the one-shot overrides are cleared by the exit so a
second clean exit falls back to the configured default message. -/
theorem scope_clean_exit_spec (st : ScopeState)
    (hbkp : st.success_bkp ≠ some "") (hctx : st.context_params_name = none) :
    (scopeExit st none).1.level = "INFO" ∧
    (scopeExit st none).1.msg = st.success_bkp.getD st.success_msg ∧
    (scopeExit st none).1.extra = [(st.name, extraVal st.extra)] ∧
    (scopeExit st none).2.1.success_bkp = none ∧
    (scopeExit st none).2.1.fail_bkp = none ∧
    (scopeExit (scopeExit st none).2.1 none).1.msg = st.success_msg := by
  have hmsg : (if pyTruthyStr st.success_bkp then st.success_bkp.getD "" else st.success_msg)
      = st.success_bkp.getD st.success_msg := by
    cases hb : st.success_bkp with
    | none => simp [pyTruthyStr]
    | some s =>
      have hs : ¬ s = "" := by
        intro hcon
        exact hbkp (by rw [hb, hcon])
      simp [pyTruthyStr, hs]
  have hcc : scopeConsumeContext { st with success_bkp := none, fail_bkp := none }
      = { st with success_bkp := none, fail_bkp := none } :=
    scopeConsumeContext_of_none _ (by simp [hctx])
  refine ⟨?_, ?_, ?_, ?_, ?_, ?_⟩
  · simp [scopeExit, revelEmit]
  · simp [scopeExit, hmsg, revelEmit]
  · simp [scopeExit, revelEmit, hcc, dictInsert]
  · simp [scopeExit, hcc]
  · simp [scopeExit, hcc]
  · simp [scopeExit, hcc, pyTruthyStr, revelEmit]

/-- Witness for C6: override `"done"` set, no context params — the clean
exit emits INFO `"done"` carrying only the nested persistent context, and
the following clean exit emits the default `"success"`. -/
theorem scope_clean_exit_spec_witness :
    ((scopeExit
        { name := "app", extra := some [("service", PyValue.VStr "billing")],
          success_msg := "success", exc_msg := "failed", handle_error := false,
          success_bkp := some "done", fail_bkp := none, context_params_name := none }
        none).1.level = "INFO") ∧
    ((scopeExit
        { name := "app", extra := some [("service", PyValue.VStr "billing")],
          success_msg := "success", exc_msg := "failed", handle_error := false,
          success_bkp := some "done", fail_bkp := none, context_params_name := none }
        none).1.msg = (some "done").getD "success") ∧
    ((scopeExit
        { name := "app", extra := some [("service", PyValue.VStr "billing")],
          success_msg := "success", exc_msg := "failed", handle_error := false,
          success_bkp := some "done", fail_bkp := none, context_params_name := none }
        none).1.extra
      = [("app", extraVal (some [("service", PyValue.VStr "billing")]))]) ∧
    ((scopeExit
        { name := "app", extra := some [("service", PyValue.VStr "billing")],
          success_msg := "success", exc_msg := "failed", handle_error := false,
          success_bkp := some "done", fail_bkp := none, context_params_name := none }
        none).2.1.success_bkp = none) ∧
    ((scopeExit
        { name := "app", extra := some [("service", PyValue.VStr "billing")],
          success_msg := "success", exc_msg := "failed", handle_error := false,
          success_bkp := some "done", fail_bkp := none, context_params_name := none }
        none).2.1.fail_bkp = none) ∧
    ((scopeExit (scopeExit
        { name := "app", extra := some [("service", PyValue.VStr "billing")],
          success_msg := "success", exc_msg := "failed", handle_error := false,
          success_bkp := some "done", fail_bkp := none, context_params_name := none }
        none).2.1 none).1.msg = "success") :=
  scope_clean_exit_spec _ (by simp) rfl

/-- C7 counterexample: a record whose extra frame carries the key
`message` does not yield the reserved keys followed by the merged context
keys — the context value overwrites the reserved `message` slot in place
(stable-key semantics), so the record's own message is lost and the key
list stays `level, time, message`. -/
theorem reserved_key_collision_counterexample :
    dictKeys (jsonOutputDict []
        ⟨"INFO", "T", "m", "app", some [("message", PyValue.VStr "x")]⟩)
      = ["level", "time", "message"] ∧
    dictGet (jsonOutputDict []
        ⟨"INFO", "T", "m", "app", some [("message", PyValue.VStr "x")]⟩) "message"
      = some (PyValue.VStr "x") ∧
    dictKeys (jsonOutputDict []
        ⟨"INFO", "T", "m", "app", some [("message", PyValue.VStr "x")]⟩)
      ≠ ["level", "time", "message"] ++ newKeys [] [("message", PyValue.VStr "x")] := by
  refine ⟨by decide, rfl, by decide⟩

/-- C7 amended: for every record whose merged context keys avoid the three
reserved names, the compact renderer's output dict starts with `level`,
`time`, `message` holding the record's own fields, followed by every merged
context key in merge order, and the serialized line exists and contains no
raw newline (a single structured line). A context key that collides with a
reserved name instead overwrites that reserved slot in place. -/
theorem compact_record_shape (params : Dict) (r : LogRecord) (extraf : Dict)
    (hext : r.extra = some extraf)
    (hp : ∀ k ∈ dictKeys params, k ∉ (["level", "time", "message"] : List String))
    (he : ∀ k ∈ dictKeys extraf, k ∉ (["level", "time", "message"] : List String)) :
    dictKeys (jsonOutputDict params r)
      = ["level", "time", "message"] ++ newKeys [] (params ++ extraf) ∧
    dictGet (jsonOutputDict params r) "level" = some (PyValue.VStr r.levelname) ∧
    dictGet (jsonOutputDict params r) "time" = some (PyValue.VStr r.asctime) ∧
    dictGet (jsonOutputDict params r) "message" = some (PyValue.VStr r.message) ∧
    (∃ s, JSONFormatter_format params r = Except.ok s ∧ StrNoNL s) := by
  have hbase : jsonOutputDict params r
      = dictUpdate (dictUpdate
          [("level", PyValue.VStr r.levelname),
           ("time", PyValue.VStr r.asctime),
           ("message", PyValue.VStr r.message)] params) extraf := by
    unfold jsonOutputDict parse_params
    rw [hext]
  have hlvl : ∀ k, k ∈ (["level", "time", "message"] : List String) →
      k ∉ dictKeys extraf := by
    intro k hkres hkmem
    exact he k hkmem hkres
  have hlvlp : ∀ k, k ∈ (["level", "time", "message"] : List String) →
      k ∉ dictKeys params := by
    intro k hkres hkmem
    exact hp k hkmem hkres
  constructor
  · rw [hbase, dictKeys_dictUpdate, dictKeys_dictUpdate]
    have hksimp : dictKeys
        [("level", PyValue.VStr r.levelname),
         ("time", PyValue.VStr r.asctime),
         ("message", PyValue.VStr r.message)]
        = ["level", "time", "message"] := rfl
    rw [hksimp]
    have h1 : newKeys ["level", "time", "message"] params = newKeys [] params := by
      refine newKeys_congr params _ _ (fun k hk => ?_)
      simp [hp k hk]
    have h2 : newKeys (["level", "time", "message"] ++ newKeys [] params) extraf
        = newKeys ([] ++ newKeys [] params) extraf := by
      refine newKeys_congr extraf _ _ (fun k hk => ?_)
      have hnot : k ∉ (["level", "time", "message"] : List String) := he k hk
      constructor
      · intro hin
        rcases List.mem_append.mp hin with hin1 | hin2
        · exact absurd hin1 hnot
        · simpa using hin2
      · intro hin
        exact List.mem_append.mpr (Or.inr (by simpa using hin))
    rw [h1, newKeys_append, h2, List.append_assoc]
  refine ⟨?_, ?_, ?_, ?_⟩
  · rw [hbase, dictGet_dictUpdate,
      lastVal_eq_none_of_not_mem extraf "level" (hlvl "level" (by simp)),
      dictGet_dictUpdate,
      lastVal_eq_none_of_not_mem params "level" (hlvlp "level" (by simp))]
    rfl
  · rw [hbase, dictGet_dictUpdate,
      lastVal_eq_none_of_not_mem extraf "time" (hlvl "time" (by simp)),
      dictGet_dictUpdate,
      lastVal_eq_none_of_not_mem params "time" (hlvlp "time" (by simp))]
    rfl
  · rw [hbase, dictGet_dictUpdate,
      lastVal_eq_none_of_not_mem extraf "message" (hlvl "message" (by simp)),
      dictGet_dictUpdate,
      lastVal_eq_none_of_not_mem params "message" (hlvlp "message" (by simp))]
    rfl
  · obtain ⟨s, hs⟩ := JSONFormatter_format_total params r
    exact ⟨s, hs, JSONFormatter_format_noNL params r s hs⟩

/-- Witness for C7 (amended) at a concrete record with one formatter param
and one extra key, both away from the reserved names. -/
theorem compact_record_shape_witness :
    (dictKeys (jsonOutputDict [("svc", PyValue.VStr "s")]
        ⟨"INFO", "T", "m", "app", some [("user", PyValue.VInt 1)]⟩)
      = ["level", "time", "message"]
        ++ newKeys [] ([("svc", PyValue.VStr "s")] ++ [("user", PyValue.VInt 1)])) ∧
    (dictGet (jsonOutputDict [("svc", PyValue.VStr "s")]
        ⟨"INFO", "T", "m", "app", some [("user", PyValue.VInt 1)]⟩) "level"
      = some (PyValue.VStr "INFO")) ∧
    (dictGet (jsonOutputDict [("svc", PyValue.VStr "s")]
        ⟨"INFO", "T", "m", "app", some [("user", PyValue.VInt 1)]⟩) "time"
      = some (PyValue.VStr "T")) ∧
    (dictGet (jsonOutputDict [("svc", PyValue.VStr "s")]
        ⟨"INFO", "T", "m", "app", some [("user", PyValue.VInt 1)]⟩) "message"
      = some (PyValue.VStr "m")) ∧
    (∃ s, JSONFormatter_format [("svc", PyValue.VStr "s")]
        ⟨"INFO", "T", "m", "app", some [("user", PyValue.VInt 1)]⟩ = Except.ok s ∧
      StrNoNL s) :=
  compact_record_shape [("svc", PyValue.VStr "s")]
    ⟨"INFO", "T", "m", "app", some [("user", PyValue.VInt 1)]⟩
    [("user", PyValue.VInt 1)] rfl (by decide) (by decide)

/-- C8: binding a `ContextLogger` to a base logger fails with the
configuration `AssertionError` at construction time exactly when no
attached handler's formatter satisfies the `_RevelFormatter` capability,
and succeeds (yielding the bound adapter) exactly when some handler's
formatter does; the emission path (`process`) contains no failure branch. -/
theorem adapter_bind_capability_check (logger : BaseLogger) (name : String)
    (extra : PyValue) :
    (ContextLogger_init logger name extra
        = Except.error "logger must have at least one revel formatter"
      ↔ ∀ h ∈ logger.handlers, isRevelFormatter h.formatter = false) ∧
    (ContextLogger_init logger name extra = Except.ok (name, extra)
      ↔ ∃ h ∈ logger.handlers, isRevelFormatter h.formatter = true) := by
  by_cases hany : (logger.handlers.any (fun h => isRevelFormatter h.formatter)) = true
  · have hinit : ContextLogger_init logger name extra = Except.ok (name, extra) := by
      unfold ContextLogger_init
      simp [hany]
    obtain ⟨h0, hmem, hrev⟩ := List.any_eq_true.mp hany
    refine ⟨⟨fun hcon => ?_, fun hall => ?_⟩, fun _ => ⟨h0, hmem, hrev⟩, fun _ => hinit⟩
    · rw [hinit] at hcon
      cases hcon
    · rw [hall h0 hmem] at hrev
      cases hrev
  · have hinit : ContextLogger_init logger name extra
        = Except.error "logger must have at least one revel formatter" := by
      unfold ContextLogger_init
      rw [if_neg hany]
    have hall : ∀ h ∈ logger.handlers, isRevelFormatter h.formatter = false := by
      intro h hmem
      by_contra hx
      refine hany (List.any_eq_true.mpr ⟨h, hmem, ?_⟩)
      revert hx
      cases isRevelFormatter h.formatter <;> simp
    refine ⟨⟨fun _ => hall, fun _ => hinit⟩, fun hok => ?_, fun hex => ?_⟩
    · rw [hinit] at hok
      cases hok
    · obtain ⟨h0, hmem, hrev⟩ := hex
      rw [hall h0 hmem] at hrev
      cases hrev

/-- Witness for C8: with one JSON-formatter handler the bind succeeds; with
only a plain formatter it fails at construction time. -/
theorem adapter_bind_capability_check_witness :
    ContextLogger_init
        { name := "b", extra := none, handlers := [{ formatter := Formatter.jsonF }] }
        "request_id" (PyValue.VStr "r1")
      = Except.ok ("request_id", PyValue.VStr "r1") ∧
    ContextLogger_init
        { name := "b", extra := none, handlers := [{ formatter := Formatter.plainF }] }
        "request_id" (PyValue.VStr "r1")
      = Except.error "logger must have at least one revel formatter" :=
  ⟨(adapter_bind_capability_check _ _ _).2.mpr
      ⟨{ formatter := Formatter.jsonF }, by simp, rfl⟩,
    (adapter_bind_capability_check _ _ _).1.mpr
      (by intro h hmem; simp at hmem; rw [hmem]; rfl)⟩

/-- C9: every emission through a `REVELLogger` method (debug, info, warning,
error, critical) stores the logger's persistent context in the record's
extra payload as one entry keyed by the logger's own name — nested, not
flattened — with value `None` when no persistent context exists, so the
payload is never empty. -/
theorem emission_nested_context_nonempty (name : String) (extra : Option Dict)
    (lvl : PyLevel) (msg : String) (kw : Dict) :
    dictGet (revelMethod name extra lvl msg kw).extra name = some (extraVal extra) ∧
    (extra = none →
      dictGet (revelMethod name extra lvl msg kw).extra name = some PyValue.VNone) ∧
    (revelMethod name extra lvl msg kw).extra ≠ [] := by
  refine ⟨?_, ?_, ?_⟩
  · exact dictGet_insert_self kw name (extraVal extra)
  · intro h
    subst h
    exact dictGet_insert_self kw name (extraVal none)
  · exact dictInsert_ne_nil kw name (extraVal extra)

/-- Witness for C9: a logger `app` with no persistent context emitting
`info` with one transient key — the payload holds `app = None` and is
non-empty. -/
theorem emission_nested_context_nonempty_witness :
    dictGet (revelMethod "app" none PyLevel.info "hello"
        [("amount", PyValue.VInt 42)]).extra "app" = some (extraVal none) ∧
    ((none : Option Dict) = none →
      dictGet (revelMethod "app" none PyLevel.info "hello"
        [("amount", PyValue.VInt 42)]).extra "app" = some PyValue.VNone) ∧
    (revelMethod "app" none PyLevel.info "hello"
        [("amount", PyValue.VInt 42)]).extra ≠ [] :=
  emission_nested_context_nonempty "app" none PyLevel.info "hello"
    [("amount", PyValue.VInt 42)]

/-- C10: `with_message` with an empty string stores the override, but the
scope exit consumes overrides by Python truthiness, so an empty-string
success (resp. failure) override is ignored and the configured default
message is emitted instead. -/
theorem empty_message_override_ignored (st : ScopeState) (s ty : String)
    (v : PyValue) :
    (scopeExit (with_message st "" none) none).1.msg = st.success_msg ∧
    (scopeExit (with_message st s (some "")) (some (ty, v))).1.msg = st.exc_msg := by
  constructor
  · simp [with_message, scopeExit, pyTruthyStr, revelEmit]
  · cases hhe : st.handle_error <;>
      simp [with_message, scopeExit, pyTruthyStr, revelEmit, hhe]

/-- ANSI reset code (`PrettyConsoleFormatter._RESET`). -/
def ansiRESET : String := "\x1b[0m"

/-- ANSI bold code (`PrettyConsoleFormatter._BOLD`). -/
def ansiBOLD : String := "\x1b[1m"

/-- ANSI dim code (`PrettyConsoleFormatter._DIM`). -/
def ansiDIM : String := "\x1b[2m"

/-- The `_FG_COLORS` table of `PrettyConsoleFormatter`. -/
def fgColor (c : String) : Option String :=
  if c = "grey" then some "\x1b[90m"
  else if c = "red" then some "\x1b[31m"
  else if c = "green" then some "\x1b[32m"
  else if c = "yellow" then some "\x1b[33m"
  else if c = "blue" then some "\x1b[34m"
  else if c = "magenta" then some "\x1b[35m"
  else if c = "cyan" then some "\x1b[36m"
  else if c = "white" then some "\x1b[37m"
  else none

/-- The code list built by `PrettyConsoleFormatter._color`: bold first, then
dim, then the foreground color when the name is in `_FG_COLORS`. -/
def colorCodes (fg : Option String) (bold dim : Bool) : List String :=
  (if bold then [ansiBOLD] else []) ++
  (if dim then [ansiDIM] else []) ++
  (match fg with
   | some f =>
       match fgColor f with
       | some c => [c]
       | none => []
   | none => [])

/-- Python `"".join(parts)`. -/
def concatAll : List String → String
  | [] => ""
  | s :: rest => s ++ concatAll rest

/-- Model of `PrettyConsoleFormatter._color`: identity when color is off or
no code applies, otherwise the joined codes, the text, and a reset. -/
def pcColor (uc : Bool) (text : String) (fg : Option String) (bold dim : Bool) :
    String :=
  if !uc then text
  else
    let codes := colorCodes fg bold dim
    if codes.isEmpty then text
    else concatAll codes ++ text ++ ansiRESET

/-- `_LEVEL_COLORS.get(levelname, "white")`. -/
def levelColorName (lvl : String) : String :=
  if lvl = "DEBUG" then "cyan"
  else if lvl = "INFO" then "green"
  else if lvl = "WARNING" then "yellow"
  else if lvl = "ERROR" then "red"
  else if lvl = "CRITICAL" then "red"
  else "white"

/-- Model of `_style_level`: level color, bold for the three high levels. -/
def styleLevel (uc : Bool) (lvl : String) : String :=
  pcColor uc lvl (some (levelColorName lvl))
    ((["WARNING", "ERROR", "CRITICAL"] : List String).contains lvl) false

/-- Model of `_style_time`: grey and dim. -/
def styleTime (uc : Bool) (ts : String) : String :=
  pcColor uc ts (some "grey") false true

/-- Model of `_style_logger_name`: blue and dim. -/
def styleLoggerName (uc : Bool) (n : String) : String :=
  pcColor uc n (some "blue") false true

/-- Model of `_style_key`: grey and bold. -/
def styleKey (uc : Bool) (k : String) : String :=
  pcColor uc k (some "grey") true false

/-- Whether the message contains a raw line feed (`"\n" not in message`). -/
def containsNL (s : String) : Bool := s.data.contains '\n'

/-- Split a character list on line feeds (every piece, including empty
ones). -/
def splitNL : List Char → List (List Char)
  | [] => [[]]
  | c :: rest =>
      let r := splitNL rest
      if c = '\n' then [] :: r
      else
        match r with
        | h :: t => (c :: h) :: t
        | [] => [[c]]

/-- Model of Python `str.splitlines()` for line-feed-separated text: split
on every line feed and drop the trailing empty piece produced by a final
line feed (so `"a\n"` gives `["a"]` and `""` gives `[]`). -/
def pySplitlines (s : String) : List String :=
  let parts := (splitNL s.data).map (fun l => String.mk l)
  if parts.getLast? = some "" then parts.dropLast else parts

/-- A run of `n` spaces (Python `" " * n`). -/
def spaces (n : Nat) : String := String.mk (List.replicate n ' ')

/-- Model of `PrettyConsoleFormatter._format_message_block`: single-line
messages follow the header; for multi-line messages every continuation
line is prefixed by spaces matching `len(header)` — the length of the
(possibly colorized) header string — plus one space and a (possibly
colorized) `│ ` marker. -/
def formatMessageBlock (uc : Bool) (header message : String) : String :=
  if !(containsNL message) then header ++ " " ++ message
  else
    let lines := pySplitlines message
    let first := lines.headD ""
    let rest := lines.tail
    let contMark := if uc then pcColor true "│ " (some "grey") false true else "│ "
    let contPre := spaces header.length ++ " " ++ contMark
    header ++ " " ++ first ++ "\n" ++ joinSep "\n" (rest.map (fun l => contPre ++ l))

/-- Model of `PrettyConsoleFormatter._is_scalar`: str, int, float, bool or
`None`. -/
def isScalarVal : PyValue → Bool
  | PyValue.VNone => true
  | PyValue.VBool _ => true
  | PyValue.VInt _ => true
  | PyValue.VStr _ => true
  | _ => false

mutual
/-- Python `repr()` as the formatter's f-string `{value!r}` uses it: `None`,
`True`/`False`, decimal integers, quoted strings (inner escaping of quote
characters is not modelled), recursive container reprs, and the carried
`repr()` text for datetimes and other objects. -/
def pyRepr : PyValue → String
  | PyValue.VNone => "None"
  | PyValue.VBool b => if b then "True" else "False"
  | PyValue.VInt n => intRepr n
  | PyValue.VStr s => "'" ++ s ++ "'"
  | PyValue.VList xs => "[" ++ joinSep ", " (pyReprList xs) ++ "]"
  | PyValue.VDict xs => "\x7b" ++ joinSep ", " (pyReprEntries xs) ++ "\x7d"
  | PyValue.VDateTime _ rep => rep
  | PyValue.VObj _ rep _ => rep

/-- Reprs of the elements of a list. -/
def pyReprList : List PyValue → List String
  | [] => []
  | x :: xs => pyRepr x :: pyReprList xs

/-- Reprs of the entries of a dict. -/
def pyReprEntries : List (String × PyValue) → List String
  | [] => []
  | p :: xs => ("'" ++ p.1 ++ "': " ++ pyRepr p.2) :: pyReprEntries xs
end

/-- Python `s * n` for the two-space indent step. -/
def strRepeat (s : String) : Nat → String
  | 0 => ""
  | n + 1 => s ++ strRepeat s n

mutual
/-- Model of `PrettyConsoleFormatter._format_complex_value`: mappings dump
each member as `key=value!r` when scalar or as `key:` plus a deeper dump;
sequences dump `[index]=...` likewise; anything else falls back to its
repr on one line. Lines are joined by line feeds; indentation is the base
indent plus two spaces per level. -/
def fmtComplex (uc : Bool) (baseIndent : String) (v : PyValue) (level : Nat) :
    String :=
  match v with
  | PyValue.VDict xs => joinSep "\n" (fmtMembers uc baseIndent xs level)
  | PyValue.VList xs => joinSep "\n" (fmtElems uc baseIndent xs 0 level)
  | v' => (baseIndent ++ strRepeat "  " level) ++ pyRepr v'

/-- Member lines of a mapping dump. -/
def fmtMembers (uc : Bool) (baseIndent : String)
    (xs : List (String × PyValue)) (level : Nat) : List String :=
  match xs with
  | [] => []
  | (k, w) :: rest =>
      let indent := baseIndent ++ strRepeat "  " level
      (if isScalarVal w then indent ++ styleKey uc k ++ "=" ++ pyRepr w
       else indent ++ styleKey uc k ++ ":" ++ "\n"
            ++ fmtComplex uc baseIndent w (level + 1))
        :: fmtMembers uc baseIndent rest level

/-- Element lines of a sequence dump (`enumerate`). -/
def fmtElems (uc : Bool) (baseIndent : String) (xs : List PyValue)
    (idx : Nat) (level : Nat) : List String :=
  match xs with
  | [] => []
  | w :: rest =>
      let indent := baseIndent ++ strRepeat "  " level
      (if isScalarVal w then
        indent ++ styleKey uc ("[" ++ natRepr idx ++ "]") ++ "=" ++ pyRepr w
       else
        indent ++ styleKey uc ("[" ++ natRepr idx ++ "]") ++ ":" ++ "\n"
            ++ fmtComplex uc baseIndent w (level + 1))
        :: fmtElems uc baseIndent rest (idx + 1) level
end

/-- Lexicographic (code point) comparison of character lists — the order
Python `sorted` uses on strings. -/
def charListLt : List Char → List Char → Bool
  | [], [] => false
  | [], _ :: _ => true
  | _ :: _, [] => false
  | a :: as, b :: bs => if a < b then true else if b < a then false else charListLt as bs

/-- Insert into a sorted list of strings. -/
def insortStr (k : String) : List String → List String
  | [] => [k]
  | x :: xs => if charListLt k.data x.data then k :: x :: xs else x :: insortStr k xs

/-- Ascending sort of strings (Python `sorted(keys)`). -/
def sortStrs (l : List String) : List String := l.foldr insortStr []

/-- Model of `PrettyConsoleFormatter._format_context_block`: empty context
gives no block; scalar entries are collected on one bullet line sorted by
key; complex entries follow, each as an opener plus a recursive dump at
level 2, sorted by key; the block is preceded by one line feed. -/
def formatContextBlock (uc : Bool) (indentN : Nat) (context : Dict) : String :=
  if context.isEmpty then ""
  else
    let baseIndent := spaces indentN
    let bullet := if uc then pcColor true "└─" (some "grey") false true else "└─"
    let scalars := context.filter (fun p => isScalarVal p.2)
    let complexItems := context.filter (fun p => !(isScalarVal p.2))
    let scalarLine :=
      if !scalars.isEmpty then
        let parts := (sortStrs (dictKeys scalars)).map
          (fun k => styleKey uc k ++ "="
            ++ pyRepr ((dictGet scalars k).getD PyValue.VNone))
        baseIndent ++ bullet ++ " " ++ joinSep " " parts
      else baseIndent ++ bullet
    let complexBlocks := (sortStrs (dictKeys complexItems)).map
      (fun k => (baseIndent ++ "   " ++ styleKey uc k ++ ":") ++ "\n"
        ++ fmtComplex uc baseIndent ((dictGet complexItems k).getD PyValue.VNone) 2)
    "\n" ++ joinSep "\n" (scalarLine :: complexBlocks)

/-- Constructor options of `PrettyConsoleFormatter`. -/
structure PrettyOpts where
  use_color : Bool
  show_logger_name : Bool
  context_indent : Nat
  params : Dict

/-- Model of `PrettyConsoleFormatter._build_context`: formatter default
params updated with the record's extra dict when present. -/
def buildContext (params : Dict) (r : LogRecord) : Dict :=
  match r.extra with
  | some e => dictUpdate params e
  | none => params

/-- Model of `PrettyConsoleFormatter.format`: colorized timestamp, bracketed
colorized level, optional colorized logger name, the message block, then the
context block. -/
def prettyFormat (opts : PrettyOpts) (r : LogRecord) : String :=
  let uc := opts.use_color
  let context := buildContext opts.params r
  let header :=
    styleTime uc r.asctime ++ " " ++ "[" ++ styleLevel uc r.levelname ++ "]"
      ++ (if opts.show_logger_name then " " ++ styleLoggerName uc r.name ++ ":" else "")
  formatMessageBlock uc header r.message
    ++ formatContextBlock uc opts.context_indent context

/-- State machine stripping ANSI style sequences: outside an escape
sequence characters pass through, a `\x1b` enters escape mode, and escape
mode swallows everything up to and including the next `m`. -/
def stripAnsiGo : Bool → List Char → List Char
  | _, [] => []
  | true, c :: rest =>
      if c = 'm' then stripAnsiGo false rest else stripAnsiGo true rest
  | false, c :: rest =>
      if c = '\x1b' then stripAnsiGo true rest else c :: stripAnsiGo false rest

/-- Strip all ANSI style codes from a string. -/
def stripAnsi (s : String) : String := String.mk (stripAnsiGo false s.data)

/-- Escape-freeness of a string: no ESC (`\x1b`) character occurs, so the
text survives ANSI stripping verbatim. -/
abbrev StrNoEsc (s : String) : Prop := '\x1b' ∉ s.data

mutual
/-- Recognizer for a (possibly empty) run of ANSI style sequences, each of
the form ESC, a body without `m` or ESC, then `m`. -/
def isCodes : List Char → Bool
  | [] => true
  | c :: rest => if c = '\x1b' then isCodesIn rest else false

/-- Inside an escape sequence: everything up to the closing `m`. -/
def isCodesIn : List Char → Bool
  | [] => false
  | c :: rest =>
      if c = 'm' then isCodes rest
      else if c = '\x1b' then false else isCodesIn rest
end

theorem stripGo_clean (a : List Char) (ha : '\x1b' ∉ a) (b : List Char) :
    stripAnsiGo false (a ++ b) = a ++ stripAnsiGo false b := by
  induction a with
  | nil => simp
  | cons c rest ih =>
    have hc : c ≠ '\x1b' := fun hcc => ha (by simp [hcc])
    have hrest : '\x1b' ∉ rest := fun hm => ha (by simp [hm])
    simp [stripAnsiGo, hc, ih hrest]

mutual
theorem stripGo_codes (a : List Char) (ha : isCodes a = true) (b : List Char) :
    stripAnsiGo false (a ++ b) = stripAnsiGo false b := by
  match a with
  | [] => simp
  | c :: rest =>
    rw [isCodes] at ha
    by_cases hc : c = '\x1b'
    · rw [if_pos hc] at ha
      subst hc
      simpa [stripAnsiGo] using stripGo_codesIn rest ha b
    · rw [if_neg hc] at ha
      cases ha

theorem stripGo_codesIn (a : List Char) (ha : isCodesIn a = true) (b : List Char) :
    stripAnsiGo true (a ++ b) = stripAnsiGo false b := by
  match a with
  | [] =>
    rw [isCodesIn] at ha
    cases ha
  | c :: rest =>
    rw [isCodesIn] at ha
    by_cases hm : c = 'm'
    · rw [if_pos hm] at ha
      subst hm
      simpa [stripAnsiGo] using stripGo_codes rest ha b
    · rw [if_neg hm] at ha
      by_cases he : c = '\x1b'
      · rw [if_pos he] at ha
        cases ha
      · rw [if_neg he] at ha
        simpa [stripAnsiGo, hm] using stripGo_codesIn rest ha b
end

mutual
theorem isCodes_append (a b : List Char) (ha : isCodes a = true)
    (hb : isCodes b = true) : isCodes (a ++ b) = true := by
  match a with
  | [] => simpa using hb
  | c :: rest =>
    rw [isCodes] at ha
    by_cases hc : c = '\x1b'
    · rw [if_pos hc] at ha
      simp only [List.cons_append, isCodes, if_pos hc]
      exact isCodesIn_append rest b ha hb
    · rw [if_neg hc] at ha
      cases ha

theorem isCodesIn_append (a b : List Char) (ha : isCodesIn a = true)
    (hb : isCodes b = true) : isCodesIn (a ++ b) = true := by
  match a with
  | [] =>
    rw [isCodesIn] at ha
    cases ha
  | c :: rest =>
    rw [isCodesIn] at ha
    by_cases hm : c = 'm'
    · rw [if_pos hm] at ha
      simp only [List.cons_append, isCodesIn, if_pos hm]
      exact isCodes_append rest b ha hb
    · rw [if_neg hm] at ha
      by_cases he : c = '\x1b'
      · rw [if_pos he] at ha
        cases ha
      · rw [if_neg he] at ha
        simp only [List.cons_append, isCodesIn, if_neg hm, if_neg he]
        exact isCodesIn_append rest b ha hb
end

theorem fgColor_isCodes (f c : String) (h : fgColor f = some c) :
    isCodes c.data = true := by
  unfold fgColor at h
  split_ifs at h <;> (cases h; decide)

theorem colorCodes_isCodes (fg : Option String) (bold dim : Bool) :
    ∀ s ∈ colorCodes fg bold dim, isCodes s.data = true := by
  intro s hs
  unfold colorCodes at hs
  rcases List.mem_append.mp hs with hs1 | hs2
  · rcases List.mem_append.mp hs1 with hb | hd
    · cases bold with
      | true =>
        simp at hb
        rw [hb]
        decide
      | false => simp at hb
    · cases dim with
      | true =>
        simp at hd
        rw [hd]
        decide
      | false => simp at hd
  · match fg with
    | none => simp at hs2
    | some f =>
      have hs3 : s ∈ (match fgColor f with
          | some c => [c]
          | none => ([] : List String)) := hs2
      cases hc : fgColor f with
      | none =>
        rw [hc] at hs3
        simp at hs3
      | some c =>
        rw [hc] at hs3
        simp at hs3
        rw [hs3]
        exact fgColor_isCodes f c hc

theorem concatAll_isCodes (l : List String)
    (h : ∀ s ∈ l, isCodes s.data = true) : isCodes (concatAll l).data = true := by
  induction l with
  | nil => decide
  | cons s rest ih =>
    simp only [concatAll]
    rw [String.data_append]
    exact isCodes_append _ _ (h s (by simp)) (ih (fun t ht => h t (by simp [ht])))

/-- Stripping relation: the colored fragment strips to the plain fragment
in every right context. -/
def StripRel (a p : String) : Prop :=
  ∀ b : List Char, stripAnsiGo false (a.data ++ b) = p.data ++ stripAnsiGo false b

theorem stripRel_of_noesc (s : String) (h : StrNoEsc s) : StripRel s s :=
  fun b => stripGo_clean s.data h b

theorem stripRel_append (a1 p1 a2 p2 : String)
    (h1 : StripRel a1 p1) (h2 : StripRel a2 p2) :
    StripRel (a1 ++ a2) (p1 ++ p2) := by
  intro b
  rw [String.data_append, String.data_append, List.append_assoc, h1, h2,
    List.append_assoc]

theorem stripRel_pcColor (t : String) (fg : Option String) (bold dim : Bool)
    (ht : StrNoEsc t) : StripRel (pcColor true t fg bold dim) t := by
  unfold pcColor
  simp only [Bool.not_true, Bool.false_eq_true, if_false]
  by_cases hemp : (colorCodes fg bold dim).isEmpty = true
  · rw [if_pos hemp]
    exact stripRel_of_noesc t ht
  · rw [if_neg hemp]
    intro b
    rw [String.data_append, String.data_append, List.append_assoc,
      List.append_assoc]
    rw [stripGo_codes _ (concatAll_isCodes _ (colorCodes_isCodes fg bold dim)) _]
    rw [stripGo_clean t.data ht]
    rw [stripGo_codes ansiRESET.data (by decide)]

theorem pcColor_false (t : String) (fg : Option String) (bold dim : Bool) :
    pcColor false t fg bold dim = t := rfl

theorem stripRel_empty : StripRel "" "" := by
  intro b
  simp [stripAnsiGo]

theorem stripRel_joinSep (sep : String) (hsep : StrNoEsc sep)
    (l1 l2 : List String) (h : List.Forall₂ StripRel l1 l2) :
    StripRel (joinSep sep l1) (joinSep sep l2) := by
  induction h with
  | nil => exact stripRel_empty
  | cons hrel hrest ih =>
    rename_i a p as ps
    cases hrest with
    | nil => simpa [joinSep] using hrel
    | cons hrel2 hrest2 =>
      simp only [joinSep]
      exact stripRel_append _ _ _ _
        (stripRel_append _ _ _ _ hrel (stripRel_of_noesc sep hsep)) ih

mutual
/-- A context value is clean when none of the strings it carries (string
contents, dict keys, `repr()` texts) contains the ESC character. -/
def cleanVal : PyValue → Bool
  | PyValue.VNone => true
  | PyValue.VBool _ => true
  | PyValue.VInt _ => true
  | PyValue.VStr s => !(s.data.contains '\x1b')
  | PyValue.VList xs => cleanElemsB xs
  | PyValue.VDict xs => cleanEntriesB xs
  | PyValue.VDateTime _ rep => !(rep.data.contains '\x1b')
  | PyValue.VObj _ rep _ => !(rep.data.contains '\x1b')

/-- Cleanliness of a list of values. -/
def cleanElemsB : List PyValue → Bool
  | [] => true
  | x :: xs => cleanVal x && cleanElemsB xs

/-- Cleanliness of dict entries (keys and values). -/
def cleanEntriesB : List (String × PyValue) → Bool
  | [] => true
  | p :: xs => (!(p.1.data.contains '\x1b')) && cleanVal p.2 && cleanEntriesB xs
end

theorem noesc_of_not_contains (s : String)
    (h : s.data.contains '\x1b' = false) : StrNoEsc s := by
  intro hmem
  rw [List.contains_eq_any_beq] at h
  have : s.data.any (fun c => '\x1b' == c) = true :=
    List.any_eq_true.mpr ⟨'\x1b', hmem, by simp⟩
  rw [this] at h
  cases h

theorem append_noesc (a b : String) (ha : StrNoEsc a) (hb : StrNoEsc b) :
    StrNoEsc (a ++ b) := by
  intro hmem
  rw [String.data_append] at hmem
  rcases List.mem_append.mp hmem with h | h
  · exact ha h
  · exact hb h

theorem joinSep_noesc (sep : String) (parts : List String) (hsep : StrNoEsc sep)
    (h : ∀ p ∈ parts, StrNoEsc p) : StrNoEsc (joinSep sep parts) := by
  induction parts with
  | nil =>
    intro hc
    exact absurd (show '\x1b' ∈ ("" : String).data from hc) (by decide)
  | cons x xs ih =>
    cases xs with
    | nil => simpa [joinSep] using h x (by simp)
    | cons y ys =>
      simp only [joinSep]
      refine append_noesc _ _ (append_noesc _ _ (h x (by simp)) hsep) ?_
      exact ih (fun p hp => h p (List.mem_cons_of_mem x hp))

theorem intRepr_noesc (n : Int) : StrNoEsc (intRepr n) := by
  intro hmem
  refine intRepr_chars (fun c => c ≠ '\x1b') ?_ (by decide) (by decide) n '\x1b' hmem rfl
  intro m
  exact digitChar_ne_low m _ (by decide)

theorem natRepr_noesc (n : Nat) : StrNoEsc (natRepr n) := by
  intro hmem
  refine natRepr_chars (fun c => c ≠ '\x1b') ?_ (by decide) n '\x1b' hmem rfl
  intro m
  exact digitChar_ne_low m _ (by decide)

theorem spaces_noesc (n : Nat) : StrNoEsc (spaces n) := by
  intro hmem
  have hmem2 : '\x1b' ∈ List.replicate n ' ' := hmem
  have := List.eq_of_mem_replicate hmem2
  cases this

theorem strRepeat_noesc (s : String) (hs : StrNoEsc s) (n : Nat) :
    StrNoEsc (strRepeat s n) := by
  induction n with
  | zero =>
    intro hc
    exact absurd (show '\x1b' ∈ ("" : String).data from hc) (by decide)
  | succ m ih => exact append_noesc _ _ hs ih

mutual
theorem pyRepr_noesc (v : PyValue) (hv : cleanVal v = true) :
    StrNoEsc (pyRepr v) := by
  match v with
  | PyValue.VNone =>
    show StrNoEsc "None"
    decide
  | PyValue.VBool b =>
    show StrNoEsc (if b then "True" else "False")
    cases b <;> decide
  | PyValue.VInt n => exact intRepr_noesc n
  | PyValue.VStr s =>
    show StrNoEsc ("'" ++ s ++ "'")
    have hs : s.data.contains '\x1b' = false := by
      simpa [cleanVal] using hv
    exact append_noesc _ _
      (append_noesc _ _ (by decide) (noesc_of_not_contains s hs)) (by decide)
  | PyValue.VList xs =>
    show StrNoEsc ("[" ++ joinSep ", " (pyReprList xs) ++ "]")
    have hxs : cleanElemsB xs = true := by simpa [cleanVal] using hv
    refine append_noesc _ _ (append_noesc _ _ (by decide) ?_) (by decide)
    exact joinSep_noesc ", " _ (by decide) (pyReprList_noesc xs hxs)
  | PyValue.VDict xs =>
    show StrNoEsc ("\x7b" ++ joinSep ", " (pyReprEntries xs) ++ "\x7d")
    have hxs : cleanEntriesB xs = true := by simpa [cleanVal] using hv
    refine append_noesc _ _ (append_noesc _ _ (by decide) ?_) (by decide)
    exact joinSep_noesc ", " _ (by decide) (pyReprEntries_noesc xs hxs)
  | PyValue.VDateTime iso rep =>
    show StrNoEsc rep
    have hs : rep.data.contains '\x1b' = false := by
      simpa [cleanVal] using hv
    exact noesc_of_not_contains rep hs
  | PyValue.VObj strv rep j =>
    show StrNoEsc rep
    have hs : rep.data.contains '\x1b' = false := by
      simpa [cleanVal] using hv
    exact noesc_of_not_contains rep hs

theorem pyReprList_noesc (xs : List PyValue) (h : cleanElemsB xs = true) :
    ∀ p ∈ pyReprList xs, StrNoEsc p := by
  match xs with
  | [] =>
    intro p hp
    simp [pyReprList] at hp
  | x :: rest =>
    intro p hp
    rw [cleanElemsB, Bool.and_eq_true] at h
    rw [pyReprList] at hp
    rcases List.mem_cons.mp hp with hp1 | hp2
    · rw [hp1]
      exact pyRepr_noesc x h.1
    · exact pyReprList_noesc rest h.2 p hp2

theorem pyReprEntries_noesc (xs : List (String × PyValue))
    (h : cleanEntriesB xs = true) : ∀ p ∈ pyReprEntries xs, StrNoEsc p := by
  match xs with
  | [] =>
    intro p hp
    simp [pyReprEntries] at hp
  | q :: rest =>
    intro p hp
    rw [cleanEntriesB, Bool.and_eq_true, Bool.and_eq_true] at h
    rw [pyReprEntries] at hp
    rcases List.mem_cons.mp hp with hp1 | hp2
    · rw [hp1]
      refine append_noesc _ _ (append_noesc _ _ (append_noesc _ _ (by decide) ?_) (by decide)) ?_
      · exact noesc_of_not_contains q.1 (by simpa using h.1.1)
      · exact pyRepr_noesc q.2 h.1.2
    · exact pyReprEntries_noesc rest h.2 p hp2
end

theorem dictGet_mem (d : Dict) (k : String) (v : PyValue)
    (h : dictGet d k = some v) : (k, v) ∈ d := by
  induction d with
  | nil => simp [dictGet] at h
  | cons p rest ih =>
    by_cases hp : p.1 = k
    · rw [dictGet, if_pos hp] at h
      have hv : p.2 = v := by
        injection h
      have : p = (k, v) := by
        rw [← hp, ← hv]
      rw [← this]
      simp
    · rw [dictGet, if_neg hp] at h
      exact List.mem_cons_of_mem p (ih h)

theorem dictGet_isSome_of_mem_keys (d : Dict) (k : String)
    (h : k ∈ dictKeys d) : ∃ v, dictGet d k = some v := by
  induction d with
  | nil => simp [dictKeys] at h
  | cons p rest ih =>
    by_cases hp : p.1 = k
    · exact ⟨p.2, by rw [dictGet, if_pos hp]⟩
    · have hmem : k ∈ dictKeys rest := by
        rcases List.mem_cons.mp (by simpa [dictKeys] using h) with h1 | h2
        · exact absurd h1.symm hp
        · exact h2
      obtain ⟨v, hv⟩ := ih hmem
      exact ⟨v, by rw [dictGet, if_neg hp, hv]⟩

theorem cleanEntriesB_mem (d : Dict) (hd : cleanEntriesB d = true) (k : String)
    (v : PyValue) (hmem : (k, v) ∈ d) :
    k.data.contains '\x1b' = false ∧ cleanVal v = true := by
  induction d with
  | nil => simp at hmem
  | cons p rest ih =>
    rw [cleanEntriesB, Bool.and_eq_true, Bool.and_eq_true] at hd
    rcases List.mem_cons.mp hmem with h1 | h2
    · rw [← h1] at hd
      exact ⟨by simpa using hd.1.1, hd.1.2⟩
    · exact ih hd.2 h2

theorem mem_insortStr (a k : String) (l : List String) :
    a ∈ insortStr k l ↔ a = k ∨ a ∈ l := by
  induction l with
  | nil => simp [insortStr]
  | cons x xs ih =>
    by_cases h : charListLt k.data x.data
    · simp [insortStr, h]
    · simp [insortStr, h, ih]
      tauto

theorem mem_sortStrs (a : String) (l : List String) :
    a ∈ sortStrs l ↔ a ∈ l := by
  induction l with
  | nil => simp [sortStrs]
  | cons x xs ih =>
    have : sortStrs (x :: xs) = insortStr x (sortStrs xs) := rfl
    rw [this, mem_insortStr]
    simp [ih]

theorem forall₂_map_same {α β : Type} (R : β → β → Prop) (f g : α → β)
    (l : List α) (h : ∀ x ∈ l, R (f x) (g x)) :
    List.Forall₂ R (l.map f) (l.map g) := by
  induction l with
  | nil => exact List.Forall₂.nil
  | cons x xs ih =>
    exact List.Forall₂.cons (h x (by simp)) (ih (fun y hy => h y (by simp [hy])))

theorem stripRel_styleKey (k : String) (hk : StrNoEsc k) :
    StripRel (styleKey true k) (styleKey false k) :=
  stripRel_pcColor k (some "grey") true false hk

mutual
theorem stripRel_fmtComplex (baseIndent : String) (hb : StrNoEsc baseIndent)
    (v : PyValue) (hv : cleanVal v = true) (level : Nat) :
    StripRel (fmtComplex true baseIndent v level)
      (fmtComplex false baseIndent v level) := by
  match v with
  | PyValue.VDict xs =>
    show StripRel (joinSep "\n" (fmtMembers true baseIndent xs level))
      (joinSep "\n" (fmtMembers false baseIndent xs level))
    exact stripRel_joinSep "\n" (by decide) _ _
      (stripRel_fmtMembers baseIndent hb xs (by simpa [cleanVal] using hv) level)
  | PyValue.VList xs =>
    show StripRel (joinSep "\n" (fmtElems true baseIndent xs 0 level))
      (joinSep "\n" (fmtElems false baseIndent xs 0 level))
    exact stripRel_joinSep "\n" (by decide) _ _
      (stripRel_fmtElems baseIndent hb xs (by simpa [cleanVal] using hv) 0 level)
  | PyValue.VNone =>
    exact stripRel_of_noesc _
      (append_noesc _ _ (append_noesc _ _ hb (strRepeat_noesc "  " (by decide) level))
        (pyRepr_noesc PyValue.VNone hv))
  | PyValue.VBool b =>
    exact stripRel_of_noesc _
      (append_noesc _ _ (append_noesc _ _ hb (strRepeat_noesc "  " (by decide) level))
        (pyRepr_noesc (PyValue.VBool b) hv))
  | PyValue.VInt n =>
    exact stripRel_of_noesc _
      (append_noesc _ _ (append_noesc _ _ hb (strRepeat_noesc "  " (by decide) level))
        (pyRepr_noesc (PyValue.VInt n) hv))
  | PyValue.VStr s =>
    exact stripRel_of_noesc _
      (append_noesc _ _ (append_noesc _ _ hb (strRepeat_noesc "  " (by decide) level))
        (pyRepr_noesc (PyValue.VStr s) hv))
  | PyValue.VDateTime iso rep =>
    exact stripRel_of_noesc _
      (append_noesc _ _ (append_noesc _ _ hb (strRepeat_noesc "  " (by decide) level))
        (pyRepr_noesc (PyValue.VDateTime iso rep) hv))
  | PyValue.VObj strv rep j =>
    exact stripRel_of_noesc _
      (append_noesc _ _ (append_noesc _ _ hb (strRepeat_noesc "  " (by decide) level))
        (pyRepr_noesc (PyValue.VObj strv rep j) hv))

theorem stripRel_fmtMembers (baseIndent : String) (hb : StrNoEsc baseIndent)
    (xs : List (String × PyValue)) (hxs : cleanEntriesB xs = true) (level : Nat) :
    List.Forall₂ StripRel (fmtMembers true baseIndent xs level)
      (fmtMembers false baseIndent xs level) := by
  match xs with
  | [] => exact List.Forall₂.nil
  | (k, w) :: rest =>
    rw [cleanEntriesB, Bool.and_eq_true, Bool.and_eq_true] at hxs
    have hk : StrNoEsc k := noesc_of_not_contains k (by simpa using hxs.1.1)
    have hind : StrNoEsc (baseIndent ++ strRepeat "  " level) :=
      append_noesc _ _ hb (strRepeat_noesc "  " (by decide) level)
    rw [fmtMembers, fmtMembers]
    by_cases hsc : isScalarVal w = true
    · rw [if_pos hsc, if_pos hsc]
      refine List.Forall₂.cons ?_ (stripRel_fmtMembers baseIndent hb rest hxs.2 level)
      refine stripRel_append _ _ _ _ ?_ (stripRel_of_noesc _ (pyRepr_noesc w hxs.1.2))
      refine stripRel_append _ _ _ _ ?_ (stripRel_of_noesc "=" (by decide))
      exact stripRel_append _ _ _ _ (stripRel_of_noesc _ hind) (stripRel_styleKey k hk)
    · rw [if_neg hsc, if_neg hsc]
      refine List.Forall₂.cons ?_ (stripRel_fmtMembers baseIndent hb rest hxs.2 level)
      refine stripRel_append _ _ _ _ ?_
        (stripRel_fmtComplex baseIndent hb w hxs.1.2 (level + 1))
      refine stripRel_append _ _ _ _ ?_ (stripRel_of_noesc "\n" (by decide))
      refine stripRel_append _ _ _ _ ?_ (stripRel_of_noesc ":" (by decide))
      exact stripRel_append _ _ _ _ (stripRel_of_noesc _ hind) (stripRel_styleKey k hk)

theorem stripRel_fmtElems (baseIndent : String) (hb : StrNoEsc baseIndent)
    (xs : List PyValue) (hxs : cleanElemsB xs = true) (idx level : Nat) :
    List.Forall₂ StripRel (fmtElems true baseIndent xs idx level)
      (fmtElems false baseIndent xs idx level) := by
  match xs with
  | [] => exact List.Forall₂.nil
  | w :: rest =>
    rw [cleanElemsB, Bool.and_eq_true] at hxs
    have hpre : StrNoEsc ("[" ++ natRepr idx ++ "]") :=
      append_noesc _ _ (append_noesc _ _ (by decide) (natRepr_noesc idx)) (by decide)
    have hind : StrNoEsc (baseIndent ++ strRepeat "  " level) :=
      append_noesc _ _ hb (strRepeat_noesc "  " (by decide) level)
    rw [fmtElems, fmtElems]
    by_cases hsc : isScalarVal w = true
    · rw [if_pos hsc, if_pos hsc]
      refine List.Forall₂.cons ?_ (stripRel_fmtElems baseIndent hb rest hxs.2 (idx + 1) level)
      refine stripRel_append _ _ _ _ ?_ (stripRel_of_noesc _ (pyRepr_noesc w hxs.1))
      refine stripRel_append _ _ _ _ ?_ (stripRel_of_noesc "=" (by decide))
      exact stripRel_append _ _ _ _ (stripRel_of_noesc _ hind) (stripRel_styleKey _ hpre)
    · rw [if_neg hsc, if_neg hsc]
      refine List.Forall₂.cons ?_ (stripRel_fmtElems baseIndent hb rest hxs.2 (idx + 1) level)
      refine stripRel_append _ _ _ _ ?_
        (stripRel_fmtComplex baseIndent hb w hxs.1 (level + 1))
      refine stripRel_append _ _ _ _ ?_ (stripRel_of_noesc "\n" (by decide))
      refine stripRel_append _ _ _ _ ?_ (stripRel_of_noesc ":" (by decide))
      exact stripRel_append _ _ _ _ (stripRel_of_noesc _ hind) (stripRel_styleKey _ hpre)
end

theorem ctx_entry_clean (ctx : Dict) (hctx : cleanEntriesB ctx = true)
    (p : String × PyValue → Bool) (k : String)
    (hk : k ∈ dictKeys (ctx.filter p)) :
    StrNoEsc k ∧
    (∃ v, dictGet (ctx.filter p) k = some v ∧ cleanVal v = true) := by
  obtain ⟨v, hv⟩ := dictGet_isSome_of_mem_keys _ _ hk
  have hmem := dictGet_mem _ _ _ hv
  have hmem2 : (k, v) ∈ ctx := (List.mem_filter.mp hmem).1
  have hcl := cleanEntriesB_mem ctx hctx k v hmem2
  exact ⟨noesc_of_not_contains k hcl.1, v, hv, hcl.2⟩

theorem stripRel_contextBlock (indentN : Nat) (ctx : Dict)
    (hctx : cleanEntriesB ctx = true) :
    StripRel (formatContextBlock true indentN ctx)
      (formatContextBlock false indentN ctx) := by
  by_cases hemp : ctx.isEmpty = true
  · simp only [formatContextBlock, if_pos hemp]
    exact stripRel_empty
  · simp only [formatContextBlock, if_neg hemp, if_pos, if_true, Bool.true_eq]
    refine stripRel_append "\n" "\n" _ _ (stripRel_of_noesc "\n" (by decide)) ?_
    refine stripRel_joinSep "\n" (by decide) _ _ ?_
    refine List.Forall₂.cons ?_ ?_
    · by_cases hsc : (ctx.filter (fun p => isScalarVal p.2)).isEmpty = true
      · simp only [hsc, Bool.not_true, Bool.false_eq_true, if_false]
        refine stripRel_append _ _ _ _ (stripRel_of_noesc _ (spaces_noesc indentN)) ?_
        exact stripRel_pcColor "└─" (some "grey") false true (by decide)
      · simp only [hsc, Bool.not_false, if_true]
        refine stripRel_append _ _ _ _ ?_ ?_
        · refine stripRel_append _ _ _ _ ?_ (stripRel_of_noesc " " (by decide))
          refine stripRel_append _ _ _ _ (stripRel_of_noesc _ (spaces_noesc indentN)) ?_
          exact stripRel_pcColor "└─" (some "grey") false true (by decide)
        · refine stripRel_joinSep " " (by decide) _ _ ?_
          refine forall₂_map_same StripRel _ _ _ (fun k hk => ?_)
          have hk2 : k ∈ dictKeys (ctx.filter (fun p => isScalarVal p.2)) :=
            (mem_sortStrs k _).mp hk
          obtain ⟨hkno, v, hv, hvcl⟩ := ctx_entry_clean ctx hctx _ k hk2
          rw [hv]
          refine stripRel_append _ _ _ _ ?_
            (stripRel_of_noesc _ (pyRepr_noesc v hvcl))
          refine stripRel_append _ _ _ _ (stripRel_styleKey k hkno)
            (stripRel_of_noesc "=" (by decide))
    · refine forall₂_map_same StripRel _ _ _ (fun k hk => ?_)
      have hk2 : k ∈ dictKeys (ctx.filter (fun p => !(isScalarVal p.2))) :=
        (mem_sortStrs k _).mp hk
      obtain ⟨hkno, v, hv, hvcl⟩ := ctx_entry_clean ctx hctx _ k hk2
      rw [hv]
      refine stripRel_append _ _ _ _ ?_
        (stripRel_fmtComplex (spaces indentN) (spaces_noesc indentN) v hvcl 2)
      refine stripRel_append _ _ _ _ ?_ (stripRel_of_noesc "\n" (by decide))
      refine stripRel_append _ _ _ _ ?_ (stripRel_of_noesc ":" (by decide))
      refine stripRel_append _ _ _ _ ?_ (stripRel_styleKey k hkno)
      exact stripRel_of_noesc _
        (append_noesc _ _ (spaces_noesc indentN) (by decide))

theorem stripRel_messageBlock (hC hP m : String) (hrel : StripRel hC hP)
    (hm : StrNoEsc m) (hnl : containsNL m = false) :
    StripRel (formatMessageBlock true hC m) (formatMessageBlock false hP m) := by
  unfold formatMessageBlock
  rw [hnl]
  simp only [Bool.not_false, if_true]
  refine stripRel_append _ _ _ _ ?_ (stripRel_of_noesc m hm)
  exact stripRel_append _ _ _ _ hrel (stripRel_of_noesc " " (by decide))

theorem stripRel_header (showName : Bool) (r : LogRecord)
    (hts : StrNoEsc r.asctime) (hlvl : StrNoEsc r.levelname)
    (hnm : StrNoEsc r.name) :
    StripRel
      (styleTime true r.asctime ++ " " ++ "[" ++ styleLevel true r.levelname ++ "]"
        ++ (if showName then " " ++ styleLoggerName true r.name ++ ":" else ""))
      (styleTime false r.asctime ++ " " ++ "[" ++ styleLevel false r.levelname ++ "]"
        ++ (if showName then " " ++ styleLoggerName false r.name ++ ":" else "")) := by
  refine stripRel_append _ _ _ _ ?_ ?_
  · refine stripRel_append _ _ _ _ ?_ (stripRel_of_noesc "]" (by decide))
    refine stripRel_append _ _ _ _ ?_
      (stripRel_pcColor r.levelname _ _ _ hlvl)
    refine stripRel_append _ _ _ _ ?_ (stripRel_of_noesc "[" (by decide))
    refine stripRel_append _ _ _ _ (stripRel_pcColor r.asctime _ _ _ hts)
      (stripRel_of_noesc " " (by decide))
  · cases showName with
    | false => exact stripRel_empty
    | true =>
      simp only [if_true]
      refine stripRel_append _ _ _ _ ?_ (stripRel_of_noesc ":" (by decide))
      exact stripRel_append _ _ _ _ (stripRel_of_noesc " " (by decide))
        (stripRel_pcColor r.name _ _ _ hnm)

theorem stringMk_data (s : String) : String.mk s.data = s := by
  cases s
  rfl

theorem stripAnsi_of_stripRel (a p : String) (h : StripRel a p) :
    stripAnsi a = p := by
  have h0 := h []
  rw [List.append_nil] at h0
  rw [show stripAnsiGo false ([] : List Char) = [] from rfl, List.append_nil] at h0
  unfold stripAnsi
  rw [h0, stringMk_data]

theorem stripRel_prettyFormat (showName : Bool) (indentN : Nat) (params : Dict)
    (r : LogRecord) (hnl : containsNL r.message = false)
    (hts : StrNoEsc r.asctime) (hlvl : StrNoEsc r.levelname)
    (hnm : StrNoEsc r.name) (hmsg : StrNoEsc r.message)
    (hctx : cleanEntriesB (buildContext params r) = true) :
    StripRel (prettyFormat ⟨true, showName, indentN, params⟩ r)
      (prettyFormat ⟨false, showName, indentN, params⟩ r) := by
  show StripRel
    (formatMessageBlock true
        (styleTime true r.asctime ++ " " ++ "[" ++ styleLevel true r.levelname ++ "]"
          ++ (if showName then " " ++ styleLoggerName true r.name ++ ":" else ""))
        r.message
      ++ formatContextBlock true indentN (buildContext params r))
    (formatMessageBlock false
        (styleTime false r.asctime ++ " " ++ "[" ++ styleLevel false r.levelname ++ "]"
          ++ (if showName then " " ++ styleLoggerName false r.name ++ ":" else ""))
        r.message
      ++ formatContextBlock false indentN (buildContext params r))
  refine stripRel_append _ _ _ _ ?_ (stripRel_contextBlock indentN _ hctx)
  exact stripRel_messageBlock _ _ _ (stripRel_header showName r hts hlvl hnm) hmsg hnl

/-- C2 counterexample: for a two-line message, the tree renderer computes
the continuation indent from `len(header)` of the *colorized* header, so
stripping the style codes from the colored rendering leaves 38 spaces of
continuation indent where the plain rendering has 16 — the two outputs are
not byte-identical. -/
theorem color_strip_multiline_differs :
    stripAnsi (prettyFormat ⟨true, false, 4, []⟩
        ⟨"INFO", "12:00:00", "a\nb", "app", none⟩)
      ≠ prettyFormat ⟨false, false, 4, []⟩
        ⟨"INFO", "12:00:00", "a\nb", "app", none⟩ ∧
    prettyFormat ⟨false, false, 4, []⟩ ⟨"INFO", "12:00:00", "a\nb", "app", none⟩
      = "12:00:00 [INFO] a\n" ++ spaces 16 ++ "│ b" ∧
    stripAnsi (prettyFormat ⟨true, false, 4, []⟩
        ⟨"INFO", "12:00:00", "a\nb", "app", none⟩)
      = "12:00:00 [INFO] a\n" ++ spaces 38 ++ "│ b" := by
  refine ⟨by decide, by decide, by decide⟩

/-- C2 amended: for every record whose message is single-line and whose
rendered text (timestamp, level, logger name, message, context keys and
values) is free of raw ESC characters, rendering with color enabled and
stripping all ANSI style codes is byte-identical to rendering with color
disabled, for every choice of the remaining options. For multi-line
messages the law fails: the continuation indent is computed from the
length of the colorized header. -/
theorem color_strip_single_line_eq (showName : Bool) (indentN : Nat)
    (params : Dict) (r : LogRecord)
    (hnl : containsNL r.message = false)
    (hts : StrNoEsc r.asctime) (hlvl : StrNoEsc r.levelname)
    (hnm : StrNoEsc r.name) (hmsg : StrNoEsc r.message)
    (hctx : cleanEntriesB (buildContext params r) = true) :
    stripAnsi (prettyFormat ⟨true, showName, indentN, params⟩ r)
      = prettyFormat ⟨false, showName, indentN, params⟩ r :=
  stripAnsi_of_stripRel _ _
    (stripRel_prettyFormat showName indentN params r hnl hts hlvl hnm hmsg hctx)

/-- Witness for C2 (amended) at a concrete record with a scalar and a
nested mapping/sequence context. -/
theorem color_strip_single_line_eq_witness :
    stripAnsi (prettyFormat ⟨true, true, 4, [("env", PyValue.VStr "prod")]⟩
        ⟨"ERROR", "12:00:00", "boom", "app",
          some [("amount", PyValue.VInt 42),
                ("user", PyValue.VDict
                  [("id", PyValue.VInt 7),
                   ("tags", PyValue.VList [PyValue.VStr "a"])])]⟩)
      = prettyFormat ⟨false, true, 4, [("env", PyValue.VStr "prod")]⟩
        ⟨"ERROR", "12:00:00", "boom", "app",
          some [("amount", PyValue.VInt 42),
                ("user", PyValue.VDict
                  [("id", PyValue.VInt 7),
                   ("tags", PyValue.VList [PyValue.VStr "a"])])]⟩ :=
  color_strip_single_line_eq true 4 [("env", PyValue.VStr "prod")]
    ⟨"ERROR", "12:00:00", "boom", "app",
      some [("amount", PyValue.VInt 42),
            ("user", PyValue.VDict
              [("id", PyValue.VInt 7),
               ("tags", PyValue.VList [PyValue.VStr "a"])])]⟩
    (by decide) (by decide) (by decide) (by decide) (by decide) (by decide)
